import Mathlib

/-!
# wordle_clone: feedback computation and attempt loop

A shallow embedding of `src/wordle_clone.cpp` (`main`).

* A `std::string` is a list of characters (`Str`).
* `vector<int> secret_count(26, 0)` is a list of 26 integers; an access outside
  `0..25` has no defined result in C++ and is `none` here.
* `cin >> guess` reads one whitespace-delimited token, so standard input is a list
  of tokens; the end of the list is end of input.
* What the program prints is a list of `Event`s, one per message.
* The value returned by `dist(rng)` is a parameter of `main`.
-/

namespace Wordle

/-- A `std::string`. -/
abbrev Str := List Char

/-- The constant `MAX_TRIES` (line 46). -/
def MAX_TRIES : Nat := 6

/-- The C function `::tolower` in the "C" locale: `'A'..'Z'` (65..90) go to
`'a'..'z'`, every other character is unchanged. -/
def tolower (c : Char) : Char :=
  if 65 ≤ c.toNat ∧ c.toNat ≤ 90 then Char.ofNat (c.toNat + 32) else c

/-- The statement `transform(w.begin(), w.end(), w.begin(), ::tolower)`. -/
def lowerStr (w : Str) : Str := w.map tolower

/-- The integer `c - 'a'` (with `'a'` = 97). -/
def idx (c : Char) : Int := (c.toNat : Int) - 97

/-- Reading `v[k]` on a `vector<int>`: `none` outside the bounds. -/
def tableGet (t : List Int) (k : Int) : Option Int :=
  if k < 0 then none else t[k.toNat]?

/-- Writing `v[k] = x` on a `vector<int>`: `none` outside the bounds. -/
def tableSet (t : List Int) (k : Int) (x : Int) : Option (List Int) :=
  if k < 0 then none else if k.toNat < t.length then some (t.set k.toNat x) else none

/-- Writing `s[i] = c` on a string: `none` outside the bounds. -/
def strSet (s : Str) (i : Nat) (c : Char) : Option Str :=
  if i < s.length then some (s.set i c) else none

/-- The loop `for (int i = 0; i < n; ++i) body`, on a state of type `σ`:
iterations `0 .. n-1` in increasing order; `none` as soon as one iteration is. -/
def forUpTo {σ : Type} (body : Nat → σ → Option σ) : Nat → σ → Option σ
  | 0, s => some s
  | n + 1, s => (forUpTo body n s).bind (body n)

/-- Body of the loop of lines 73-75:
`if (secret[i] != guess[i]) secret_count[secret[i]-'a']++;`. -/
def countBody (secret guess : Str) (i : Nat) (cnt : List Int) : Option (List Int) :=
  match secret[i]?, guess[i]? with
  | some s, some g =>
    if s ≠ g then
      match tableGet cnt (idx s) with
      | some v => tableSet cnt (idx s) (v + 1)
      | none => none
    else some cnt
  | _, _ => none

/-- Body of the first pass (lines 77-81):
`if (guess[i] == secret[i]) result[i] = 'G';`. -/
def greenBody (secret guess : Str) (i : Nat) (result : Str) : Option Str :=
  match guess[i]?, secret[i]? with
  | some g, some s => if g = s then strSet result i 'G' else some result
  | _, _ => none

/-- Body of the second pass (lines 83-92), on the pair `(result, secret_count)`. -/
def yellowBody (guess : Str) (i : Nat) (st : Str × List Int) : Option (Str × List Int) :=
  match st.1[i]? with
  | none => none
  | some r =>
    if r = 'G' then some st
    else
      match guess[i]? with
      | none => none
      | some g =>
        match tableGet st.2 (idx g) with
        | none => none
        | some v =>
          if v > 0 then
            match strSet st.1 i 'Y', tableSet st.2 (idx g) (v - 1) with
            | some result, some cnt => some (result, cnt)
            | _, _ => none
          else
            match strSet st.1 i '_' with
            | some result => some (result, st.2)
            | none => none

/-- The count table after the loop of lines 72-75. -/
def countPass (secret guess : Str) : Option (List Int) :=
  forUpTo (countBody secret guess) 5 (List.replicate 26 0)

/-- The string `result` after the first pass (lines 71, 77-81). -/
def firstPass (secret guess : Str) : Option Str :=
  forUpTo (greenBody secret guess) 5 (List.replicate 5 '_')

/-- The pair `(result, secret_count)` after the second pass (lines 83-92). -/
def secondPass (guess : Str) (result : Str) (cnt : List Int) : Option (Str × List Int) :=
  forUpTo (yellowBody guess) 5 (result, cnt)

/-- The feedback computation of lines 70-92: the final string `result`. -/
def feedback (secret guess : Str) : Option Str :=
  match countPass secret guess, firstPass secret guess with
  | some cnt, some result =>
    match secondPass guess result cnt with
    | some st => some st.1
    | none => none
  | _, _ => none

/-- A word of the specification: exactly 5 characters, each in `'a'..'z'` (97..122). -/
def isWord (w : Str) : Prop := w.length = 5 ∧ ∀ c ∈ w, 97 ≤ c.toNat ∧ c.toNat ≤ 122

instance (w : Str) : Decidable (isWord w) := by unfold isWord; infer_instance

/-- One message written to standard output. -/
inductive Event where
  /-- The three header lines (lines 47-49). -/
  | banner
  /-- The prompt `Try attempt/6 > ` (line 54). -/
  | prompt (attempt : Nat)
  /-- The message `Enter a 5-letter word.` (line 58). -/
  | enterFive
  /-- The message `Word not in list. Try another.` (line 64). -/
  | notInList
  /-- The coloured display of a scored guess (lines 95-106). -/
  | shown (guess result : Str)
  /-- The message `You got it in attempt tries! The word was "secret".` (line 109). -/
  | gotIt (attempt : Nat) (secret : Str)
  /-- The two lines `Out of tries - the word was: secret` ... (lines 114-115). -/
  | outOfTries (secret : Str)
  deriving DecidableEq, Repr

/-- Which `return 0` ended `main`: line 55 (end of input), line 110 (guess equal
to the secret) or line 116 (the attempt loop ran out). -/
inductive Exit where
  | eof
  | win
  | lose
  deriving DecidableEq, Repr

/-- A finished run of `main`: everything written, and the `return` reached. -/
structure Run where
  out : List Event
  exit : Exit
  deriving DecidableEq, Repr

/-- What a run comes to: it finishes, or it makes an access with no defined
result (`undefined`), or the model has no iterations left (`fuelOut`). -/
inductive Outcome where
  | done (r : Run)
  | undefined
  | fuelOut
  deriving DecidableEq, Repr

/-- Result of the validation loop of lines 53-68. -/
inductive Read where
  /-- `cin >> guess` failed: `main` returns (line 55). -/
  | eof (out : List Event)
  /-- The loop was left by `break` with a validated `guess`; `rest` is the unread input. -/
  | got (guess : Str) (rest : List Str) (out : List Event)
  deriving DecidableEq, Repr

/-- The validation loop `while (true) { ... }` of lines 53-68, one token per iteration. -/
def readGuess (words : List Str) (attempt : Nat) : List Str → List Event → Read
  | [], out => Read.eof (out ++ [Event.prompt attempt])
  | tok :: rest, out =>
    if tok.length ≠ 5 then
      readGuess words attempt rest (out ++ [Event.prompt attempt, Event.enterFive])
    else if lowerStr tok ∉ words then
      readGuess words attempt rest (out ++ [Event.prompt attempt, Event.notInList])
    else Read.got (lowerStr tok) rest (out ++ [Event.prompt attempt])

/-- The attempt loop `for (int attempt = 1; attempt <= MAX_TRIES; ++attempt)` of
lines 51-112 followed by lines 114-116, started at the loop test with the given
value of `attempt`; `fuel` bounds the number of loop tests. -/
def attemptLoop (words : List Str) (secret : Str) :
    Nat → Nat → List Str → List Event → Outcome
  | 0, _, _, _ => Outcome.fuelOut
  | fuel + 1, attempt, input, out =>
    if attempt ≤ MAX_TRIES then
      match readGuess words attempt input out with
      | Read.eof out1 => Outcome.done ⟨out1, Exit.eof⟩
      | Read.got guess rest out1 =>
        match feedback secret guess with
        | none => Outcome.undefined
        | some result =>
          if guess = secret then
            Outcome.done
              ⟨out1 ++ [Event.shown guess result, Event.gotIt attempt secret], Exit.win⟩
          else attemptLoop words secret fuel (attempt + 1) rest
            (out1 ++ [Event.shown guess result])
    else Outcome.done ⟨out ++ [Event.outOfTries secret], Exit.lose⟩

/-- Lines 46-116 of `main`: the header, then the attempt loop from `attempt = 1`.
The loop test is made at most `MAX_TRIES + 1` times. -/
def game (words : List Str) (secret : Str) (input : List Str) : Outcome :=
  attemptLoop words secret (MAX_TRIES + 1) 1 input [Event.banner]

/-- The loading loop of lines 28-32, on the tokens of `words.txt`. -/
def loadWords : List Str → List Str
  | [] => []
  | w :: rest =>
    if (lowerStr w).length = 5 then lowerStr w :: loadWords rest else loadWords rest

/-- The function `main`: `file` is the token sequence of `words.txt` (empty when the
file cannot be opened), `draw` the value of `dist(rng)`, `input` the tokens of
standard input. Line 44 reads `words[draw]`, which has no defined result outside
the bounds of `words`. -/
def main (file : List Str) (draw : Int) (input : List Str) : Outcome :=
  let words := (loadWords file).map lowerStr
  if draw < 0 then Outcome.undefined
  else
    match words[draw.toNat]? with
    | none => Outcome.undefined
    | some secret => game words secret input

/-- Number of scored guesses in an output: one feedback display per scored guess. -/
def scored : List Event → Nat
  | [] => 0
  | Event.shown _ _ :: rest => scored rest + 1
  | _ :: rest => scored rest

/-- No guess is scored after a scored guess equal to the secret: every feedback
display of the secret itself is followed by no further feedback display. -/
def quietAfterWin (secret : Str) : List Event → Prop
  | [] => True
  | Event.shown g _ :: rest => (g = secret → scored rest = 0) ∧ quietAfterWin secret rest
  | _ :: rest => quietAfterWin secret rest

/-- An output message that gives the secret away: the win message, the
out-of-tries message, or the display of a guess equal to the secret. -/
def reveals (secret : Str) : Event → Prop
  | Event.shown g _ => g = secret
  | Event.gotIt _ _ => True
  | Event.outOfTries _ => True
  | _ => False

/-! ## Closed form of the feedback -/

/-- Number of positions `j < n` where the secret holds `c` and the guess does not:
the value of `secret_count[c-'a']` after `n` iterations of the counting loop. -/
def unmatchedUpTo (secret guess : Str) (c : Char) : Nat → Nat
  | 0 => 0
  | n + 1 => unmatchedUpTo secret guess c n +
      (if secret[n]? = some c ∧ guess[n]? ≠ some c then 1 else 0)

/-- Number of positions `j < n` where the guess holds `c` and the secret does not. -/
def usedUpTo (secret guess : Str) (c : Char) : Nat → Nat
  | 0 => 0
  | n + 1 => usedUpTo secret guess c n +
      (if guess[n]? = some c ∧ secret[n]? ≠ some c then 1 else 0)

/-- Number of positions `j < n` where guess and secret both hold `c`. -/
def matchedUpTo (secret guess : Str) (c : Char) : Nat → Nat
  | 0 => 0
  | n + 1 => matchedUpTo secret guess c n +
      (if guess[n]? = some c ∧ secret[n]? = some c then 1 else 0)

/-- Number of positions `j < n` of `w` that hold `c`. -/
def occUpTo (w : Str) (c : Char) : Nat → Nat
  | 0 => 0
  | n + 1 => occUpTo w c n + (if w[n]? = some c then 1 else 0)

/-- The verdict at position `i` in closed form. -/
def verdict (secret guess : Str) (i : Nat) : Char :=
  if guess[i]? = secret[i]? then 'G'
  else
    match guess[i]? with
    | some c =>
      if usedUpTo secret guess c i < unmatchedUpTo secret guess c 5 then 'Y' else '_'
    | none => '_'

/-- The five verdicts in closed form, as a string. -/
def verdicts (secret guess : Str) : Str := (List.range 5).map (verdict secret guess)

/-- Position of a lowercase letter in the count table. -/
def slot (c : Char) : Nat := c.toNat - 97

theorem toNat_inj {a b : Char} (h : a.toNat = b.toNat) : a = b := by
  apply Char.ext
  apply UInt32.ext
  exact h

theorem slot_inj {a b : Char} (ha : 97 ≤ a.toNat) (hb : 97 ≤ b.toNat)
    (h : slot a = slot b) : a = b := by
  apply toNat_inj
  unfold slot at h
  omega

theorem slot_lt {c : Char} (h : c.toNat ≤ 122) : slot c < 26 := by
  unfold slot; omega

theorem tableGet_idx {c : Char} (hc : 97 ≤ c.toNat) (t : List Int) :
    tableGet t (idx c) = t[slot c]? := by
  have h1 : idx c = ((slot c : Nat) : Int) := by unfold idx slot; omega
  unfold tableGet
  rw [h1]
  simp

theorem tableSet_idx {c : Char} (hc : 97 ≤ c.toNat) (hz : c.toNat ≤ 122) (t : List Int)
    (ht : t.length = 26) (x : Int) : tableSet t (idx c) x = some (t.set (slot c) x) := by
  have h1 : idx c = ((slot c : Nat) : Int) := by unfold idx slot; omega
  have h2 := slot_lt hz
  unfold tableSet
  rw [h1]
  simp [ht, h2]

theorem forUpTo_succ {σ : Type} (body : Nat → σ → Option σ) (n : Nat) (s : σ) :
    forUpTo body (n + 1) s = (forUpTo body n s).bind (body n) := rfl

theorem word_get {w : Str} (hw : isWord w) {i : Nat} (hi : i < 5) :
    ∃ c, w[i]? = some c ∧ 97 ≤ c.toNat ∧ c.toNat ≤ 122 := by
  have hl : i < w.length := by rw [hw.1]; exact hi
  exact ⟨w[i], List.getElem?_eq_getElem hl, hw.2 _ (List.getElem_mem _)⟩

/-- The counting loop (lines 72-75) on two words: it is defined, and after `n`
iterations the entry of a letter `c` is the number of unmatched `c` in the
first `n` positions of the secret. -/
theorem countPass_inv (secret guess : Str) (hs : isWord secret) (hg : isWord guess) :
    ∀ n, n ≤ 5 → ∃ t, forUpTo (countBody secret guess) n (List.replicate 26 0) = some t ∧
      t.length = 26 ∧ ∀ c : Char, 97 ≤ c.toNat → c.toNat ≤ 122 →
        t[slot c]? = some ((unmatchedUpTo secret guess c n : Nat) : Int) := by
  intro n
  induction n with
  | zero =>
    intro _
    refine ⟨_, rfl, by simp, ?_⟩
    intro c _ h2
    rw [List.getElem?_replicate_of_lt (slot_lt h2)]
    simp [unmatchedUpTo]
  | succ n ih =>
    intro hn
    obtain ⟨t, ht, hlen, hent⟩ := ih (by omega)
    obtain ⟨s, hsn, hs1, hs2⟩ := word_get hs (show n < 5 by omega)
    obtain ⟨g, hgn, _, _⟩ := word_get hg (show n < 5 by omega)
    rw [forUpTo_succ, ht, Option.some_bind]
    unfold countBody
    rw [hsn, hgn]
    simp only
    by_cases hsg : s = g
    · subst hsg
      refine ⟨t, by simp, hlen, ?_⟩
      intro c h1 h2
      rw [hent c h1 h2]
      simp [unmatchedUpTo, hsn, hgn]
    · rw [if_pos hsg, tableGet_idx hs1, hent s hs1 hs2]
      simp only
      rw [tableSet_idx hs1 hs2 _ hlen]
      refine ⟨_, rfl, by simp [hlen], ?_⟩
      intro c h1 h2
      by_cases hc : s = c
      · subst hc
        rw [List.getElem?_set_self (by rw [hlen]; exact slot_lt hs2)]
        have hgs : ¬ g = s := fun h => hsg h.symm
        simp [unmatchedUpTo, hsn, hgn, hgs]
      · have hne : slot s ≠ slot c := fun h => hc (slot_inj hs1 h1 h)
        rw [List.getElem?_set_ne hne, hent c h1 h2]
        simp [unmatchedUpTo, hsn, hc]

/-- The first pass (lines 77-81) on two words: it is defined, and after `n`
iterations position `j` holds `'G'` when `j < n` and the letters agree, else `'_'`. -/
theorem firstPass_inv (secret guess : Str) (hs : isWord secret) (hg : isWord guess) :
    ∀ n, n ≤ 5 → ∃ r, forUpTo (greenBody secret guess) n (List.replicate 5 '_') = some r ∧
      r.length = 5 ∧ ∀ j, j < 5 →
        r[j]? = some (if j < n ∧ guess[j]? = secret[j]? then 'G' else '_') := by
  intro n
  induction n with
  | zero =>
    intro _
    refine ⟨_, rfl, by simp, ?_⟩
    intro j hj
    rw [List.getElem?_replicate_of_lt hj]
    simp
  | succ n ih =>
    intro hn
    obtain ⟨r, hr, hlen, hent⟩ := ih (by omega)
    obtain ⟨s, hsn, _, _⟩ := word_get hs (show n < 5 by omega)
    obtain ⟨g, hgn, _, _⟩ := word_get hg (show n < 5 by omega)
    rw [forUpTo_succ, hr, Option.some_bind]
    unfold greenBody
    rw [hsn, hgn]
    simp only
    by_cases hgs : g = s
    · subst hgs
      have hlt : n < r.length := by omega
      rw [if_pos rfl]
      unfold strSet
      rw [if_pos hlt]
      refine ⟨_, rfl, by simp [hlen], ?_⟩
      intro j hj
      by_cases hjn : n = j
      · subst hjn
        rw [List.getElem?_set_self hlt]
        simp [hsn, hgn]
      · rw [List.getElem?_set_ne hjn, hent j hj]
        have hiff : j < n + 1 ↔ j < n := by omega
        simp only [hiff]
    · rw [if_neg hgs]
      refine ⟨r, rfl, hlen, ?_⟩
      intro j hj
      rw [hent j hj]
      by_cases hjn : n = j
      · subst hjn
        simp [hsn, hgn, hgs]
      · have hiff : j < n + 1 ↔ j < n := by omega
        simp only [hiff]

/-- The second pass (lines 83-92) on two words, started from the result of the
first pass and the table of the counting loop: it is defined, after `n`
iterations the positions below `n` hold their final verdict, and the entry of
a letter `c` is what is left of its unmatched occurrences. -/
theorem secondPass_inv (secret guess : Str) (hs : isWord secret) (hg : isWord guess)
    (r1 : Str) (cnt : List Int) (hr1len : r1.length = 5)
    (hr1 : ∀ j, j < 5 → r1[j]? = some (if guess[j]? = secret[j]? then 'G' else '_'))
    (hcl : cnt.length = 26)
    (hc : ∀ c : Char, 97 ≤ c.toNat → c.toNat ≤ 122 →
      cnt[slot c]? = some ((unmatchedUpTo secret guess c 5 : Nat) : Int)) :
    ∀ n, n ≤ 5 → ∃ r t, forUpTo (yellowBody guess) n (r1, cnt) = some (r, t) ∧
      r.length = 5 ∧ t.length = 26 ∧
      (∀ j, j < 5 → r[j]? = some (if j < n then verdict secret guess j
          else if guess[j]? = secret[j]? then 'G' else '_')) ∧
      ∀ c : Char, 97 ≤ c.toNat → c.toNat ≤ 122 →
        t[slot c]? =
          some ((unmatchedUpTo secret guess c 5 - usedUpTo secret guess c n : Nat) : Int) := by
  intro n
  induction n with
  | zero =>
    intro _
    refine ⟨r1, cnt, rfl, hr1len, hcl, ?_, ?_⟩
    · intro j hj
      rw [hr1 j hj]
      simp
    · intro c h1 h2
      rw [hc c h1 h2]
      simp [usedUpTo]
  | succ n ih =>
    intro hn
    obtain ⟨r, t, hrt, hlen, htlen, hent, htab⟩ := ih (by omega)
    obtain ⟨s, hsn, _, _⟩ := word_get hs (show n < 5 by omega)
    obtain ⟨g, hgn, hg1, hg2⟩ := word_get hg (show n < 5 by omega)
    have hlt : n < r.length := by omega
    have hrn := hent n (by omega)
    rw [if_neg (Nat.lt_irrefl n), hgn, hsn] at hrn
    rw [forUpTo_succ, hrt, Option.some_bind]
    unfold yellowBody
    simp only
    rw [hrn]
    simp only
    by_cases hgs : g = s
    · subst hgs
      rw [if_pos rfl, if_pos rfl]
      refine ⟨r, t, rfl, hlen, htlen, ?_, ?_⟩
      · intro j hj
        rw [hent j hj]
        by_cases hjn : j = n
        · subst hjn
          simp [verdict, hsn, hgn]
        · have hiff : j < n + 1 ↔ j < n := by omega
          simp only [hiff]
      · intro c h1 h2
        rw [htab c h1 h2]
        simp [usedUpTo, hsn, hgn]
    · have hne : ¬ (some g = some s) := fun h => hgs (Option.some.inj h)
      rw [if_neg hne, if_neg (by decide), hgn]
      simp only
      rw [tableGet_idx hg1, htab g hg1 hg2]
      simp only
      have hused : usedUpTo secret guess g (n + 1) = usedUpTo secret guess g n + 1 := by
        have hsg : ¬ s = g := fun h => hgs h.symm
        simp [usedUpTo, hsn, hgn, hsg]
      have hother : ∀ c, ¬ g = c →
          usedUpTo secret guess c (n + 1) = usedUpTo secret guess c n := by
        intro c hgc
        simp [usedUpTo, hgn, hgc]
      by_cases hpos : usedUpTo secret guess g n < unmatchedUpTo secret guess g 5
      · have hv : ((unmatchedUpTo secret guess g 5 - usedUpTo secret guess g n : Nat) : Int) > 0 := by
          omega
        rw [if_pos hv]
        unfold strSet
        rw [if_pos hlt, tableSet_idx hg1 hg2 _ htlen]
        refine ⟨_, _, rfl, by simp [hlen], by simp [htlen], ?_, ?_⟩
        · intro j hj
          by_cases hjn : n = j
          · subst hjn
            rw [List.getElem?_set_self hlt]
            simp [verdict, hsn, hgn, hgs, hpos]
          · rw [List.getElem?_set_ne hjn, hent j hj]
            have hiff : j < n + 1 ↔ j < n := by omega
            simp only [hiff]
        · intro c h1 h2
          by_cases hgc : g = c
          · subst hgc
            rw [List.getElem?_set_self (by rw [htlen]; exact slot_lt hg2), hused]
            congr 1
            omega
          · have hsl : slot g ≠ slot c := fun h => hgc (slot_inj hg1 h1 h)
            rw [List.getElem?_set_ne hsl, htab c h1 h2, hother c hgc]
      · have hv : ¬ ((unmatchedUpTo secret guess g 5 - usedUpTo secret guess g n : Nat) : Int) > 0 := by
          omega
        rw [if_neg hv]
        unfold strSet
        rw [if_pos hlt]
        refine ⟨_, _, rfl, by simp [hlen], htlen, ?_, ?_⟩
        · intro j hj
          by_cases hjn : n = j
          · subst hjn
            rw [List.getElem?_set_self hlt]
            simp [verdict, hsn, hgn, hgs, hpos]
          · rw [List.getElem?_set_ne hjn, hent j hj]
            have hiff : j < n + 1 ↔ j < n := by omega
            simp only [hiff]
        · intro c h1 h2
          rw [htab c h1 h2]
          by_cases hgc : g = c
          · subst hgc
            rw [hused]
            congr 1
            omega
          · rw [hother c hgc]

theorem eq_map_range5 {r : Str} {f : Nat → Char} (hlen : r.length = 5)
    (h : ∀ j, j < 5 → r[j]? = some (f j)) : r = (List.range 5).map f := by
  apply List.ext_getElem?
  intro n
  by_cases hn : n < 5
  · rw [h n hn]
    simp [List.getElem?_range, hn]
  · rw [List.getElem?_eq_none (by omega), List.getElem?_eq_none (by simp; omega)]

/-- The three loops on two words: each is defined; the first pass marks exactly
the agreeing positions, and the second pass ends with the closed-form verdicts. -/
theorem passes_spec (secret guess : Str) (hs : isWord secret) (hg : isWord guess) :
    ∃ cnt r1 t, countPass secret guess = some cnt ∧ firstPass secret guess = some r1 ∧
      secondPass guess r1 cnt = some (verdicts secret guess, t) ∧
      r1.length = 5 ∧
      (∀ j, j < 5 → r1[j]? = some (if guess[j]? = secret[j]? then 'G' else '_')) := by
  obtain ⟨cnt, hcnt, hcl, hc⟩ := countPass_inv secret guess hs hg 5 (Nat.le_refl 5)
  obtain ⟨r1, hr1, hr1len, hr1ent⟩ := firstPass_inv secret guess hs hg 5 (Nat.le_refl 5)
  have hr1ent2 : ∀ j, j < 5 →
      r1[j]? = some (if guess[j]? = secret[j]? then 'G' else '_') := by
    intro j hj
    rw [hr1ent j hj]
    simp [hj]
  obtain ⟨r, t, hrt, hlen, _, hent, _⟩ :=
    secondPass_inv secret guess hs hg r1 cnt hr1len hr1ent2 hcl hc 5 (Nat.le_refl 5)
  have hr : r = verdicts secret guess := by
    apply eq_map_range5 hlen
    intro j hj
    rw [hent j hj, if_pos hj]
  subst hr
  exact ⟨cnt, r1, t, hcnt, hr1, hrt, hr1len, hr1ent2⟩

/-- On two words the feedback computation is defined and is the closed form. -/
theorem feedback_eq (secret guess : Str) (hs : isWord secret) (hg : isWord guess) :
    feedback secret guess = some (verdicts secret guess) := by
  obtain ⟨cnt, r1, t, h1, h2, h3, _, _⟩ := passes_spec secret guess hs hg
  unfold feedback
  rw [h1, h2]
  simp only
  rw [h3]

theorem verdicts_get (secret guess : Str) {i : Nat} (hi : i < 5) :
    (verdicts secret guess)[i]? = some (verdict secret guess i) := by
  simp [verdicts, List.getElem?_range, hi]

theorem filter_range_succ (p : Nat → Bool) (n : Nat) :
    ((List.range (n + 1)).filter p).length =
      ((List.range n).filter p).length + (if p n then 1 else 0) := by
  rw [List.range_succ, List.filter_append, List.length_append]
  by_cases h : p n <;> simp [h]

theorem occUpTo_five (w : Str) (hw : w.length = 5) (c : Char) : occUpTo w c 5 = w.count c := by
  match w, hw with
  | [a0, a1, a2, a3, a4], _ =>
    simp only [occUpTo, List.count_cons, List.count_nil, beq_iff_eq]
    simp
    omega

theorem matched_add_unmatched (secret guess : Str) (c : Char) (n : Nat) :
    matchedUpTo secret guess c n + unmatchedUpTo secret guess c n = occUpTo secret c n := by
  induction n with
  | zero => rfl
  | succ n ih =>
    simp only [matchedUpTo, unmatchedUpTo, occUpTo]
    rw [← ih]
    by_cases h1 : secret[n]? = some c <;> by_cases h2 : guess[n]? = some c <;> simp [h1, h2] <;> omega

theorem matched_add_used (secret guess : Str) (c : Char) (n : Nat) :
    matchedUpTo secret guess c n + usedUpTo secret guess c n = occUpTo guess c n := by
  induction n with
  | zero => rfl
  | succ n ih =>
    simp only [matchedUpTo, usedUpTo, occUpTo]
    rw [← ih]
    by_cases h1 : secret[n]? = some c <;> by_cases h2 : guess[n]? = some c <;> simp [h1, h2] <;> omega

theorem usedUpTo_mono (secret guess : Str) (c : Char) {i j : Nat} (hij : i ≤ j) :
    usedUpTo secret guess c i ≤ usedUpTo secret guess c j := by
  induction hij with
  | refl => exact Nat.le_refl _
  | step _ ih => exact Nat.le_trans ih (by simp [usedUpTo])

theorem verdict_green_iff (secret guess : Str) (i : Nat) :
    verdict secret guess i = 'G' ↔ guess[i]? = secret[i]? := by
  unfold verdict
  by_cases h : guess[i]? = secret[i]?
  · simp [h]
  · rw [if_neg h]
    simp only [h, iff_false]
    cases guess[i]? with
    | none => simp
    | some c =>
      simp only
      split <;> decide

theorem verdict_yellow_iff (secret guess : Str) (i : Nat) (c : Char)
    (hg : guess[i]? = some c) :
    verdict secret guess i = 'Y' ↔
      (secret[i]? ≠ some c ∧ usedUpTo secret guess c i < unmatchedUpTo secret guess c 5) := by
  unfold verdict
  rw [hg]
  by_cases h : some c = secret[i]?
  · rw [if_pos h]
    simp [h.symm]
  · rw [if_neg h]
    have h2 : secret[i]? ≠ some c := fun e => h e.symm
    simp only
    by_cases hlt : usedUpTo secret guess c i < unmatchedUpTo secret guess c 5
    · simp [hlt, h2]
    · simp [hlt]

/-- Number of positions below `n` holding `c` in the guess and marked `'G'` or `'Y'`:
the matched ones, and as many of the others as the secret has unmatched `c`. -/
theorem marked_upTo (secret guess : Str) (c : Char) (n : Nat) :
    ((List.range n).filter (fun i => decide (guess[i]? = some c ∧
        (verdict secret guess i = 'G' ∨ verdict secret guess i = 'Y')))).length =
      matchedUpTo secret guess c n +
        min (usedUpTo secret guess c n) (unmatchedUpTo secret guess c 5) := by
  induction n with
  | zero => simp [matchedUpTo, usedUpTo]
  | succ n ih =>
    rw [filter_range_succ, ih]
    simp only [matchedUpTo, usedUpTo]
    by_cases hg : guess[n]? = some c
    · simp only [verdict_green_iff, verdict_yellow_iff secret guess n c hg, hg]
      by_cases hs : secret[n]? = some c
      · simp [hs]
        omega
      · have hs2 : ¬ some c = secret[n]? := fun e => hs e.symm
        by_cases hlt : usedUpTo secret guess c n < unmatchedUpTo secret guess c 5
        · simp [hs, hs2, hlt]
          omega
        · simp [hs, hs2, hlt]
          omega
    · simp [hg]

theorem verdicts_self (w : Str) : verdicts w w = ['G', 'G', 'G', 'G', 'G'] := by
  have hv : ∀ i, verdict w w i = 'G' := fun i => (verdict_green_iff w w i).mpr rfl
  simp [verdicts, List.range_succ, hv]

/-! ## The feedback computation (claims C1 to C5) -/

/-- C1 (duplicate-letter conservation): for a secret and a guess that are both 5
lowercase letters and every letter `L`, the feedback is computed, and the number
of positions `i` with `guess[i] = L` whose verdict is `'G'` or `'Y'` is at most
the number of occurrences of `L` in the secret. -/
theorem C1_duplicate_conservation (secret guess : Str) (hs : isWord secret)
    (hg : isWord guess) (L : Char) :
    ∃ result, feedback secret guess = some result ∧
      ((List.range 5).filter (fun i => decide (guess[i]? = some L ∧
          (result[i]? = some 'G' ∨ result[i]? = some 'Y')))).length ≤ secret.count L := by
  refine ⟨verdicts secret guess, feedback_eq secret guess hs hg, ?_⟩
  have hcongr : (List.range 5).filter (fun i => decide (guess[i]? = some L ∧
        ((verdicts secret guess)[i]? = some 'G' ∨ (verdicts secret guess)[i]? = some 'Y'))) =
      (List.range 5).filter (fun i => decide (guess[i]? = some L ∧
        (verdict secret guess i = 'G' ∨ verdict secret guess i = 'Y'))) := by
    apply List.filter_congr
    intro i hi
    rw [verdicts_get secret guess (List.mem_range.mp hi)]
    simp
  rw [hcongr, marked_upTo, ← occUpTo_five secret hs.1 L, ← matched_add_unmatched secret guess L 5]
  omega

/-- Witness of C1: secret `erase`, guess `eager`, letter `e`. -/
theorem C1_duplicate_conservation_witness :
    ∃ result, feedback "erase".toList "eager".toList = some result ∧
      ((List.range 5).filter (fun i => decide ("eager".toList[i]? = some 'e' ∧
          (result[i]? = some 'G' ∨ result[i]? = some 'Y')))).length ≤
        "erase".toList.count 'e' :=
  C1_duplicate_conservation "erase".toList "eager".toList (by decide) (by decide) 'e'

/-- C2: for every word `w` of 5 lowercase letters, the feedback for secret `w` and
guess `w` is `'G'` at all five positions. -/
theorem C2_self_all_correct (w : Str) (hw : isWord w) :
    feedback w w = some ['G', 'G', 'G', 'G', 'G'] := by
  rw [feedback_eq w w hw hw, verdicts_self]

/-- Witness of C2: the word `allay`. -/
theorem C2_self_all_correct_witness :
    feedback "allay".toList "allay".toList = some ['G', 'G', 'G', 'G', 'G'] :=
  C2_self_all_correct "allay".toList (by decide)

/-- C3: for a secret and a guess of 5 lowercase letters and a position `i < 5`, the
three loops are defined, the final verdict at `i` is `'G'` if and only if
`guess[i] = secret[i]`, and the second pass leaves position `i` marked `'G'`
exactly when the first pass marked it `'G'`. -/
theorem C3_correct_iff_match (secret guess : Str) (hs : isWord secret) (hg : isWord guess)
    (i : Nat) (hi : i < 5) :
    ∃ cnt r1 st, countPass secret guess = some cnt ∧ firstPass secret guess = some r1 ∧
      secondPass guess r1 cnt = some st ∧ feedback secret guess = some st.1 ∧
      (st.1[i]? = some 'G' ↔ guess[i]? = secret[i]?) ∧
      (r1[i]? = some 'G' ↔ guess[i]? = secret[i]?) ∧
      (r1[i]? = some 'G' ↔ st.1[i]? = some 'G') := by
  obtain ⟨cnt, r1, t, h1, h2, h3, _, h5⟩ := passes_spec secret guess hs hg
  have hfinal : (verdicts secret guess)[i]? = some 'G' ↔ guess[i]? = secret[i]? := by
    rw [verdicts_get secret guess hi, ← verdict_green_iff secret guess i]
    simp
  have hfirst : r1[i]? = some 'G' ↔ guess[i]? = secret[i]? := by
    rw [h5 i hi]
    by_cases h : guess[i]? = secret[i]? <;> simp [h]
  exact ⟨cnt, r1, (verdicts secret guess, t), h1, h2, h3, feedback_eq secret guess hs hg,
    hfinal, hfirst, hfirst.trans hfinal.symm⟩

/-- Witness of C3: secret `erase`, guess `eager`, position 0. -/
theorem C3_correct_iff_match_witness :
    ∃ cnt r1 st, countPass "erase".toList "eager".toList = some cnt ∧
      firstPass "erase".toList "eager".toList = some r1 ∧
      secondPass "eager".toList r1 cnt = some st ∧
      feedback "erase".toList "eager".toList = some st.1 ∧
      (st.1[0]? = some 'G' ↔ "eager".toList[0]? = "erase".toList[0]?) ∧
      (r1[0]? = some 'G' ↔ "eager".toList[0]? = "erase".toList[0]?) ∧
      (r1[0]? = some 'G' ↔ st.1[0]? = some 'G') :=
  C3_correct_iff_match "erase".toList "eager".toList (by decide) (by decide) 0 (by decide)

/-- C4 (earlier positions have priority for Present): for a secret and a guess of 5
lowercase letters and positions `i < j < 5` that carry the same guessed letter
and are both not `'G'`, if `j` is marked `'Y'` then `i` is marked `'Y'`, and if
`i` is marked `'_'` then `j` is marked `'_'`. -/
theorem C4_earlier_present_first (secret guess : Str) (hs : isWord secret)
    (hg : isWord guess) :
    ∃ result, feedback secret guess = some result ∧
      ∀ i j, i < j → j < 5 → guess[i]? = guess[j]? →
        result[i]? ≠ some 'G' → result[j]? ≠ some 'G' →
        (result[j]? = some 'Y' → result[i]? = some 'Y') ∧
        (result[i]? = some '_' → result[j]? = some '_') := by
  refine ⟨verdicts secret guess, feedback_eq secret guess hs hg, ?_⟩
  intro i j hij hj hsame
  have hi : i < 5 := by omega
  obtain ⟨c, hgj, _, _⟩ := word_get hg hj
  have hgi : guess[i]? = some c := hsame.trans hgj
  rw [verdicts_get secret guess hi, verdicts_get secret guess hj]
  intro hni hnj
  have hni2 : ¬ guess[i]? = secret[i]? := fun h =>
    hni (congrArg some ((verdict_green_iff secret guess i).mpr h))
  have hnj2 : ¬ guess[j]? = secret[j]? := fun h =>
    hnj (congrArg some ((verdict_green_iff secret guess j).mpr h))
  have hmono := usedUpTo_mono secret guess c (Nat.le_of_lt hij)
  have hvi : verdict secret guess i =
      if usedUpTo secret guess c i < unmatchedUpTo secret guess c 5 then 'Y' else '_' := by
    unfold verdict
    rw [if_neg hni2, hgi]
  have hvj : verdict secret guess j =
      if usedUpTo secret guess c j < unmatchedUpTo secret guess c 5 then 'Y' else '_' := by
    unfold verdict
    rw [if_neg hnj2, hgj]
  rw [hvi, hvj]
  by_cases h1 : usedUpTo secret guess c i < unmatchedUpTo secret guess c 5
  · rw [if_pos h1]
    exact ⟨fun _ => rfl, fun h => absurd (Option.some.inj h) (by decide)⟩
  · have h2 : ¬ usedUpTo secret guess c j < unmatchedUpTo secret guess c 5 := by omega
    rw [if_neg h1, if_neg h2]
    exact ⟨fun h => absurd (Option.some.inj h) (by decide), fun _ => rfl⟩

/-- Witness of C4: secret `erase`, guess `geese`. -/
theorem C4_earlier_present_first_witness :
    ∃ result, feedback "erase".toList "geese".toList = some result ∧
      ∀ i j, i < j → j < 5 → "geese".toList[i]? = "geese".toList[j]? →
        result[i]? ≠ some 'G' → result[j]? ≠ some 'G' →
        (result[j]? = some 'Y' → result[i]? = some 'Y') ∧
        (result[i]? = some '_' → result[j]? = some '_') :=
  C4_earlier_present_first "erase".toList "geese".toList (by decide) (by decide)

/-- C5: for secret `erase` and guess `eager` the computed feedback is `GY_YY`. -/
theorem C5_erase_eager :
    feedback "erase".toList "eager".toList = some ['G', 'Y', '_', 'Y', 'Y'] := by
  decide

/-! ## The attempt loop (claims C6 to C10) -/

theorem readGuess_reject_length (words : List Str) (attempt : Nat) (tok : Str)
    (rest : List Str) (out : List Event) (h : tok.length ≠ 5) :
    readGuess words attempt (tok :: rest) out =
      readGuess words attempt rest (out ++ [Event.prompt attempt, Event.enterFive]) := by
  rw [readGuess, if_pos h]

theorem readGuess_reject_unknown (words : List Str) (attempt : Nat) (tok : Str)
    (rest : List Str) (out : List Event) (h5 : tok.length = 5) (h : lowerStr tok ∉ words) :
    readGuess words attempt (tok :: rest) out =
      readGuess words attempt rest (out ++ [Event.prompt attempt, Event.notInList]) := by
  rw [readGuess, if_neg (not_not.mpr h5), if_pos h]

theorem readGuess_accept (words : List Str) (attempt : Nat) (tok : Str)
    (rest : List Str) (out : List Event) (h5 : tok.length = 5) (h : lowerStr tok ∈ words) :
    readGuess words attempt (tok :: rest) out =
      Read.got (lowerStr tok) rest (out ++ [Event.prompt attempt]) := by
  rw [readGuess, if_neg (not_not.mpr h5), if_neg (not_not.mpr h)]

/-- One iteration of the attempt loop on a token that passes validation and whose
feedback is `result`. -/
theorem attemptLoop_accept (words : List Str) (secret : Str) (fuel attempt : Nat)
    (tok : Str) (rest : List Str) (out : List Event) (result : Str)
    (ha : attempt ≤ MAX_TRIES) (h5 : tok.length = 5) (h : lowerStr tok ∈ words)
    (hf : feedback secret (lowerStr tok) = some result) :
    attemptLoop words secret (fuel + 1) attempt (tok :: rest) out =
      if lowerStr tok = secret then
        Outcome.done ⟨out ++ [Event.prompt attempt, Event.shown (lowerStr tok) result,
          Event.gotIt attempt secret], Exit.win⟩
      else attemptLoop words secret fuel (attempt + 1) rest
        (out ++ [Event.prompt attempt, Event.shown (lowerStr tok) result]) := by
  rw [attemptLoop, if_pos ha, readGuess_accept words attempt tok rest out h5 h]
  simp only [hf, List.append_assoc, List.singleton_append]

/-- A rejected token leaves the attempt loop where it was. -/
theorem attemptLoop_reject (words : List Str) (secret : Str) (fuel attempt : Nat)
    (tok : Str) (rest : List Str) (out : List Event) (msg : Event)
    (ha : attempt ≤ MAX_TRIES)
    (hr : readGuess words attempt (tok :: rest) out =
      readGuess words attempt rest (out ++ [Event.prompt attempt, msg])) :
    attemptLoop words secret fuel attempt (tok :: rest) out =
      attemptLoop words secret fuel attempt rest (out ++ [Event.prompt attempt, msg]) := by
  cases fuel with
  | zero => rfl
  | succ fuel => rw [attemptLoop, attemptLoop, if_pos ha, if_pos ha, hr]

theorem scored_append (a b : List Event) : scored (a ++ b) = scored a + scored b := by
  induction a with
  | nil => simp [scored]
  | cons e a ih =>
    cases e <;> simp [scored, ih]
    omega

theorem words_eq_of_get {a b : Str} (ha : a.length = 5) (hb : b.length = 5)
    (h : ∀ i, i < 5 → a[i]? = b[i]?) : a = b := by
  apply List.ext_getElem?
  intro n
  by_cases hn : n < 5
  · exact h n hn
  · rw [List.getElem?_eq_none (by omega), List.getElem?_eq_none (by omega)]

/-- C6: for a secret and a validated guess of 5 lowercase letters, the feedback is
computed, the win test `guess == secret` holds if and only if the feedback is `'G'`
at all five positions, and an attempt `attempt <= MAX_TRIES` that reads a token
validated to this guess ends the run as a win reporting `attempt` when the test
holds, and otherwise goes on to attempt `attempt + 1`. -/
theorem C6_win_iff_all_correct (secret guess : Str) (hs : isWord secret)
    (hg : isWord guess) :
    ∃ result, feedback secret guess = some result ∧
      (guess = secret ↔ result = ['G', 'G', 'G', 'G', 'G']) ∧
      ∀ (words : List Str) (fuel attempt : Nat) (tok : Str) (rest : List Str)
        (out : List Event), attempt ≤ MAX_TRIES → tok.length = 5 → lowerStr tok = guess →
        guess ∈ words →
        attemptLoop words secret (fuel + 1) attempt (tok :: rest) out =
          if result = ['G', 'G', 'G', 'G', 'G'] then
            Outcome.done ⟨out ++ [Event.prompt attempt, Event.shown guess result,
              Event.gotIt attempt secret], Exit.win⟩
          else attemptLoop words secret fuel (attempt + 1) rest
            (out ++ [Event.prompt attempt, Event.shown guess result]) := by
  have hiff : guess = secret ↔ verdicts secret guess = ['G', 'G', 'G', 'G', 'G'] := by
    constructor
    · intro h
      subst h
      exact verdicts_self guess
    · intro h
      apply words_eq_of_get hg.1 hs.1
      intro i hi
      apply (verdict_green_iff secret guess i).mp
      have hv := verdicts_get secret guess hi
      rw [h] at hv
      have h5 : ['G', 'G', 'G', 'G', 'G'][i]? = some 'G' := by
        match i, hi with
        | 0, _ => rfl
        | 1, _ => rfl
        | 2, _ => rfl
        | 3, _ => rfl
        | 4, _ => rfl
      rw [h5] at hv
      exact (Option.some.inj hv).symm
  refine ⟨verdicts secret guess, feedback_eq secret guess hs hg, hiff, ?_⟩
  intro words fuel attempt tok rest out ha h5 hlow hmem
  subst hlow
  rw [attemptLoop_accept words secret fuel attempt tok rest out _ ha h5 hmem
    (feedback_eq secret _ hs hg)]
  by_cases hw : lowerStr tok = secret
  · rw [if_pos hw, if_pos (hiff.mp hw)]
  · rw [if_neg hw, if_neg (fun h => hw (hiff.mpr h))]

/-- Witness of C6: secret `erase`, guess `erase`. -/
theorem C6_win_iff_all_correct_witness :
    ∃ result, feedback "erase".toList "erase".toList = some result ∧
      ("erase".toList = "erase".toList ↔ result = ['G', 'G', 'G', 'G', 'G']) ∧
      ∀ (words : List Str) (fuel attempt : Nat) (tok : Str) (rest : List Str)
        (out : List Event), attempt ≤ MAX_TRIES → tok.length = 5 →
        lowerStr tok = "erase".toList → "erase".toList ∈ words →
        attemptLoop words "erase".toList (fuel + 1) attempt (tok :: rest) out =
          if result = ['G', 'G', 'G', 'G', 'G'] then
            Outcome.done ⟨out ++ [Event.prompt attempt, Event.shown "erase".toList result,
              Event.gotIt attempt "erase".toList], Exit.win⟩
          else attemptLoop words "erase".toList fuel (attempt + 1) rest
            (out ++ [Event.prompt attempt, Event.shown "erase".toList result]) :=
  C6_win_iff_all_correct "erase".toList "erase".toList (by decide) (by decide)

/-- C7 (a rejected guess consumes no attempt): at attempt number `attempt` with
`1 <= attempt <= 6`, a token that does not have length 5, or whose lowercased form
is not in the word list, only adds the prompt and one rejection message to the
output: the validation loop and the attempt loop go on with the next token at the
same attempt number, with the same secret and the same number of scored guesses. -/
theorem C7_rejected_guess_free (words : List Str) (secret : Str) (fuel attempt : Nat)
    (tok : Str) (rest : List Str) (out : List Event)
    (h1 : 1 ≤ attempt) (h6 : attempt ≤ MAX_TRIES)
    (hbad : tok.length ≠ 5 ∨ lowerStr tok ∉ words) :
    ∃ msg, (msg = Event.enterFive ∨ msg = Event.notInList) ∧
      readGuess words attempt (tok :: rest) out =
        readGuess words attempt rest (out ++ [Event.prompt attempt, msg]) ∧
      attemptLoop words secret fuel attempt (tok :: rest) out =
        attemptLoop words secret fuel attempt rest (out ++ [Event.prompt attempt, msg]) ∧
      scored (out ++ [Event.prompt attempt, msg]) = scored out := by
  have _ := h1
  by_cases h5 : tok.length = 5
  · have hmem : lowerStr tok ∉ words := by
      cases hbad with
      | inl h => exact absurd h5 h
      | inr h => exact h
    have hr := readGuess_reject_unknown words attempt tok rest out h5 hmem
    exact ⟨Event.notInList, Or.inr rfl, hr,
      attemptLoop_reject words secret fuel attempt tok rest out _ h6 hr,
      by rw [scored_append]; rfl⟩
  · have hr := readGuess_reject_length words attempt tok rest out h5
    exact ⟨Event.enterFive, Or.inl rfl, hr,
      attemptLoop_reject words secret fuel attempt tok rest out _ h6 hr,
      by rw [scored_append]; rfl⟩

/-- Witness of C7: attempt 3, the token `hello` with the word list `erase`, `eager`. -/
theorem C7_rejected_guess_free_witness :
    ∃ msg, (msg = Event.enterFive ∨ msg = Event.notInList) ∧
      readGuess ["erase".toList, "eager".toList] 3 ("hello".toList :: ["eager".toList])
          [Event.banner] =
        readGuess ["erase".toList, "eager".toList] 3 ["eager".toList]
          ([Event.banner] ++ [Event.prompt 3, msg]) ∧
      attemptLoop ["erase".toList, "eager".toList] "erase".toList 7 3
          ("hello".toList :: ["eager".toList]) [Event.banner] =
        attemptLoop ["erase".toList, "eager".toList] "erase".toList 7 3 ["eager".toList]
          ([Event.banner] ++ [Event.prompt 3, msg]) ∧
      scored ([Event.banner] ++ [Event.prompt 3, msg]) = scored [Event.banner] :=
  C7_rejected_guess_free ["erase".toList, "eager".toList] "erase".toList 7 3
    "hello".toList ["eager".toList] [Event.banner] (by decide) (by decide) (by decide)

/-- C9 (defect): with no word loaded (`words.txt` absent or empty, or holding no
token of length 5) the read `words[dist(rng)]` of line 44 is outside the bounds
for every value of the draw, so the run has no defined result; no test for an
empty list is made and no error is reported. -/
theorem C9_empty_list_undefined (draw : Int) (input : List Str) :
    main [] draw input = Outcome.undefined ∧
      main ["hi".toList, "banana".toList] draw input = Outcome.undefined := by
  have hload : loadWords ["hi".toList, "banana".toList] = [] := by decide
  constructor
  · unfold main
    by_cases h : draw < 0 <;> simp [h, loadWords]
  · unfold main
    rw [hload]
    by_cases h : draw < 0 <;> simp [h]

/-- The validation loop ending on end of input has only written prompts and
rejection messages. -/
theorem readGuess_eof_out (words : List Str) (attempt : Nat) :
    ∀ (input : List Str) (out out1 : List Event),
      readGuess words attempt input out = Read.eof out1 →
      ∃ evs, out1 = out ++ evs ∧
        ∀ e ∈ evs, e = Event.prompt attempt ∨ e = Event.enterFive ∨ e = Event.notInList := by
  intro input
  induction input with
  | nil =>
    intro out out1 h
    rw [readGuess] at h
    injection h with h
    exact ⟨[Event.prompt attempt], h.symm, by simp⟩
  | cons tok rest ih =>
    intro out out1 h
    by_cases h5 : tok.length = 5
    · by_cases hmem : lowerStr tok ∈ words
      · rw [readGuess_accept words attempt tok rest out h5 hmem] at h
        cases h
      · rw [readGuess_reject_unknown words attempt tok rest out h5 hmem] at h
        obtain ⟨evs, ho, hq⟩ := ih _ _ h
        refine ⟨[Event.prompt attempt, Event.notInList] ++ evs, by rw [ho, List.append_assoc], ?_⟩
        intro e he
        rcases List.mem_append.mp he with h1 | h1
        · simp at h1
          rcases h1 with h1 | h1 <;> simp [h1]
        · exact hq e h1
    · rw [readGuess_reject_length words attempt tok rest out h5] at h
      obtain ⟨evs, ho, hq⟩ := ih _ _ h
      refine ⟨[Event.prompt attempt, Event.enterFive] ++ evs, by rw [ho, List.append_assoc], ?_⟩
      intro e he
      rcases List.mem_append.mp he with h1 | h1
      · simp at h1
        rcases h1 with h1 | h1 <;> simp [h1]
      · exact hq e h1

/-- The validation loop left by `break`: it has only written prompts and rejection
messages, and the guess is the lowercased form of an input token of length 5 and
is in the word list. -/
theorem readGuess_got_out (words : List Str) (attempt : Nat) :
    ∀ (input : List Str) (out out1 : List Event) (guess : Str) (rest : List Str),
      readGuess words attempt input out = Read.got guess rest out1 →
      ∃ evs, out1 = out ++ evs ∧
        (∀ e ∈ evs, e = Event.prompt attempt ∨ e = Event.enterFive ∨ e = Event.notInList) ∧
        guess ∈ words ∧ ∃ tok ∈ input, tok.length = 5 ∧ guess = lowerStr tok := by
  intro input
  induction input with
  | nil =>
    intro out out1 guess rest h
    rw [readGuess] at h
    cases h
  | cons tok more ih =>
    intro out out1 guess rest h
    by_cases h5 : tok.length = 5
    · by_cases hmem : lowerStr tok ∈ words
      · rw [readGuess_accept words attempt tok more out h5 hmem] at h
        injection h with hg _ ho
        subst hg
        exact ⟨[Event.prompt attempt], ho.symm, by simp, hmem, tok, List.mem_cons_self _ _,
          h5, rfl⟩
      · rw [readGuess_reject_unknown words attempt tok more out h5 hmem] at h
        obtain ⟨evs, ho, hq, hgm, t, ht, ht5, hgt⟩ := ih _ _ _ _ h
        refine ⟨[Event.prompt attempt, Event.notInList] ++ evs,
          by rw [ho, List.append_assoc], ?_, hgm, t, List.mem_cons_of_mem _ ht, ht5, hgt⟩
        intro e he
        rcases List.mem_append.mp he with h1 | h1
        · simp at h1
          rcases h1 with h1 | h1 <;> simp [h1]
        · exact hq e h1
    · rw [readGuess_reject_length words attempt tok more out h5] at h
      obtain ⟨evs, ho, hq, hgm, t, ht, ht5, hgt⟩ := ih _ _ _ _ h
      refine ⟨[Event.prompt attempt, Event.enterFive] ++ evs,
        by rw [ho, List.append_assoc], ?_, hgm, t, List.mem_cons_of_mem _ ht, ht5, hgt⟩
      intro e he
      rcases List.mem_append.mp he with h1 | h1
      · simp at h1
        rcases h1 with h1 | h1 <;> simp [h1]
      · exact hq e h1

theorem scored_of_quiet (attempt : Nat) (evs : List Event)
    (h : ∀ e ∈ evs, e = Event.prompt attempt ∨ e = Event.enterFive ∨ e = Event.notInList) :
    scored evs = 0 := by
  induction evs with
  | nil => rfl
  | cons e evs ih =>
    have hrest := ih (fun x hx => h x (List.mem_cons_of_mem _ hx))
    rcases h e (List.mem_cons_self _ _) with h1 | h1 | h1 <;> simp [h1, scored, hrest]

theorem quietAfterWin_append (secret : Str) (a b : List Event) (ha : scored a = 0) :
    quietAfterWin secret (a ++ b) ↔ quietAfterWin secret b := by
  induction a with
  | nil => simp
  | cons e a ih =>
    cases e <;> simp [scored] at ha <;> simp [quietAfterWin, ih ha]

theorem quietAfterWin_split (secret : Str) :
    ∀ (pre l : List Event) (g res : Str) (post : List Event),
      quietAfterWin secret l → l = pre ++ Event.shown g res :: post → g = secret →
      scored post = 0 := by
  intro pre
  induction pre with
  | nil =>
    intro l g res post hq hl hg
    subst hl
    exact hq.1 hg
  | cons e pre ih =>
    intro l g res post hq hl hg
    subst hl
    have hq2 : quietAfterWin secret (pre ++ Event.shown g res :: post) := by
      cases e <;> simp [quietAfterWin] at hq <;> first | exact hq | exact hq.2
    exact ih _ g res post hq2 rfl hg

/-- Every finished run of the attempt loop started at `attempt` has written, after
what was already written, at most `MAX_TRIES + 1 - attempt` feedback displays, none
of them after a display of the secret itself. -/
theorem attemptLoop_scored (words : List Str) (secret : Str) :
    ∀ (fuel attempt : Nat) (input : List Str) (out : List Event) (r : Run),
      attemptLoop words secret fuel attempt input out = Outcome.done r →
      ∃ added, r.out = out ++ added ∧ scored added ≤ MAX_TRIES + 1 - attempt ∧
        quietAfterWin secret added := by
  have hM : MAX_TRIES = 6 := rfl
  intro fuel
  induction fuel with
  | zero =>
    intro attempt input out r h
    simp [attemptLoop] at h
  | succ fuel ih =>
    intro attempt input out r h
    rw [attemptLoop] at h
    by_cases ha : attempt ≤ MAX_TRIES
    · rw [if_pos ha] at h
      cases hrd : readGuess words attempt input out with
      | eof out1 =>
        rw [hrd] at h
        simp only at h
        obtain ⟨evs, ho, hq⟩ := readGuess_eof_out words attempt input out out1 hrd
        have hz := scored_of_quiet attempt evs hq
        injection h with h
        subst h
        refine ⟨evs, ho, by omega, ?_⟩
        have := (quietAfterWin_append secret evs [] hz).mpr trivial
        simpa using this
      | got guess rest out1 =>
        rw [hrd] at h
        simp only at h
        obtain ⟨evs, ho, hq, _⟩ := readGuess_got_out words attempt input out out1 guess rest hrd
        have hz := scored_of_quiet attempt evs hq
        cases hf : feedback secret guess with
        | none =>
          rw [hf] at h
          simp at h
        | some result =>
          rw [hf] at h
          simp only at h
          by_cases hw : guess = secret
          · rw [if_pos hw] at h
            injection h with h
            subst h
            refine ⟨evs ++ [Event.shown guess result, Event.gotIt attempt secret],
              by simp [ho], ?_, ?_⟩
            · rw [scored_append, hz]
              simp only [scored]
              omega
            · rw [quietAfterWin_append secret _ _ hz]
              simp [quietAfterWin, scored]
          · rw [if_neg hw] at h
            obtain ⟨added, hadd, hsc, hqa⟩ := ih _ _ _ _ h
            refine ⟨evs ++ Event.shown guess result :: added, by simp [hadd, ho], ?_, ?_⟩
            · rw [scored_append, hz]
              simp only [scored]
              omega
            · rw [quietAfterWin_append secret _ _ hz]
              exact ⟨fun e => absurd e hw, hqa⟩
    · rw [if_neg ha] at h
      injection h with h
      subst h
      exact ⟨[Event.outOfTries secret], rfl, by simp [scored], by simp [quietAfterWin]⟩

/-- With a word list and a secret made of 5 lowercase letters, the attempt loop
finishes as soon as it may make `MAX_TRIES + 2 - attempt` loop tests. -/
theorem attemptLoop_done (words : List Str) (secret : Str)
    (hwords : ∀ w ∈ words, isWord w) (hsecret : isWord secret) :
    ∀ (fuel attempt : Nat) (input : List Str) (out : List Event),
      MAX_TRIES + 1 - attempt < fuel →
      ∃ r, attemptLoop words secret fuel attempt input out = Outcome.done r := by
  have hM : MAX_TRIES = 6 := rfl
  intro fuel
  induction fuel with
  | zero =>
    intro attempt input out h
    omega
  | succ fuel ih =>
    intro attempt input out h
    rw [attemptLoop]
    by_cases ha : attempt ≤ MAX_TRIES
    · rw [if_pos ha]
      cases hrd : readGuess words attempt input out with
      | eof out1 => exact ⟨_, rfl⟩
      | got guess rest out1 =>
        obtain ⟨_, _, _, hmem, _⟩ :=
          readGuess_got_out words attempt input out out1 guess rest hrd
        simp only
        rw [feedback_eq secret guess hsecret (hwords guess hmem)]
        simp only
        by_cases hw : guess = secret
        · rw [if_pos hw]
          exact ⟨_, rfl⟩
        · rw [if_neg hw]
          exact ih _ _ _ (by omega)
    · rw [if_neg ha]
      exact ⟨_, rfl⟩

/-- The attempt loop never stops for lack of loop tests once it may make
`MAX_TRIES + 2 - attempt` of them, whatever the word list and the secret. -/
theorem attemptLoop_fuel (words : List Str) (secret : Str) :
    ∀ (fuel attempt : Nat) (input : List Str) (out : List Event),
      MAX_TRIES + 1 - attempt < fuel →
      attemptLoop words secret fuel attempt input out ≠ Outcome.fuelOut := by
  have hM : MAX_TRIES = 6 := rfl
  intro fuel
  induction fuel with
  | zero =>
    intro attempt input out h
    omega
  | succ fuel ih =>
    intro attempt input out h
    rw [attemptLoop]
    by_cases ha : attempt ≤ MAX_TRIES
    · rw [if_pos ha]
      cases hrd : readGuess words attempt input out with
      | eof out1 => simp
      | got guess rest out1 =>
        simp only
        cases hf : feedback secret guess with
        | none => simp
        | some result =>
          simp only
          by_cases hw : guess = secret
          · rw [if_pos hw]
            simp
          · rw [if_neg hw]
            exact ih _ _ _ (by omega)
    · rw [if_neg ha]
      simp

/-- C10 (no guess is accepted once the run is over): in every finished run, over
every input, at most `MAX_TRIES = 6` guesses are scored, and no guess is scored
after a scored guess equal to the secret; and with a word list and a secret made
of 5 lowercase letters every run finishes. -/
theorem C10_no_scoring_after_terminal (words : List Str) (secret : Str)
    (input : List Str) :
    (∀ r, game words secret input = Outcome.done r →
      scored r.out ≤ MAX_TRIES ∧
      ∀ (pre : List Event) (g res : Str) (post : List Event),
        r.out = pre ++ Event.shown g res :: post → g = secret → scored post = 0) ∧
    ((∀ w ∈ words, isWord w) → isWord secret →
      ∃ r, game words secret input = Outcome.done r) := by
  have hM : MAX_TRIES = 6 := rfl
  constructor
  · intro r hr
    obtain ⟨added, hadd, hsc, hq⟩ :=
      attemptLoop_scored words secret (MAX_TRIES + 1) 1 input [Event.banner] r hr
    have hz : scored [Event.banner] = 0 := rfl
    constructor
    · rw [hadd, scored_append, hz]
      omega
    · intro pre g res post hsplit hg
      have hq2 : quietAfterWin secret r.out := by
        rw [hadd, quietAfterWin_append secret _ _ hz]
        exact hq
      exact quietAfterWin_split secret pre r.out g res post hq2 hsplit hg
  · intro hwords hsecret
    exact attemptLoop_done words secret hwords hsecret (MAX_TRIES + 1) 1 input
      [Event.banner] (by omega)

/-- Witness of C10: secret `erase` guessed at the second attempt, with two more
valid tokens left in the input. -/
theorem C10_no_scoring_after_terminal_witness :
    ∃ r, game ["erase".toList, "eager".toList] "erase".toList
        ["eager".toList, "erase".toList, "eager".toList, "erase".toList] = Outcome.done r ∧
      scored r.out ≤ MAX_TRIES ∧
      ∀ (pre : List Event) (g res : Str) (post : List Event),
        r.out = pre ++ Event.shown g res :: post → g = "erase".toList → scored post = 0 :=
  (C10_no_scoring_after_terminal ["erase".toList, "eager".toList] "erase".toList
      ["eager".toList, "erase".toList, "eager".toList, "erase".toList]).2
    (by decide) (by decide) |>.elim fun r hr =>
      ⟨r, hr, (C10_no_scoring_after_terminal ["erase".toList, "eager".toList] "erase".toList
        ["eager".toList, "erase".toList, "eager".toList, "erase".toList]).1 r hr⟩

/-! ## Traces of the attempt loop (claims C11, C13, C14, C16, C19) -/

/-- What the validation loop leaves unread is part of what it was given. -/
theorem readGuess_got_rest (words : List Str) (attempt : Nat) :
    ∀ (input : List Str) (out out1 : List Event) (guess : Str) (rest : List Str),
      readGuess words attempt input out = Read.got guess rest out1 →
      ∀ t ∈ rest, t ∈ input := by
  intro input
  induction input with
  | nil =>
    intro out out1 guess rest h
    rw [readGuess] at h
    cases h
  | cons tok more ih =>
    intro out out1 guess rest h
    by_cases h5 : tok.length = 5
    · by_cases hmem : lowerStr tok ∈ words
      · rw [readGuess_accept words attempt tok more out h5 hmem] at h
        injection h with _ hr _
        subst hr
        exact fun t ht => List.mem_cons_of_mem _ ht
      · rw [readGuess_reject_unknown words attempt tok more out h5 hmem] at h
        exact fun t ht => List.mem_cons_of_mem _ (ih _ _ _ _ h t ht)
    · rw [readGuess_reject_length words attempt tok more out h5] at h
      exact fun t ht => List.mem_cons_of_mem _ (ih _ _ _ _ h t ht)

theorem not_shown_of_quiet (attempt : Nat) (evs : List Event)
    (h : ∀ e ∈ evs, e = Event.prompt attempt ∨ e = Event.enterFive ∨ e = Event.notInList)
    (g res : Str) : Event.shown g res ∉ evs := by
  intro hmem
  rcases h _ hmem with h1 | h1 | h1 <;> cases h1

/-- Every feedback display written by a finished run of the attempt loop shows a
guess that passed validation (the lowercased form of an input token of length 5,
in the word list) together with the feedback of the pair (secret, guess). -/
theorem attemptLoop_trace (words : List Str) (secret : Str) :
    ∀ (fuel attempt : Nat) (input : List Str) (out : List Event) (r : Run),
      attemptLoop words secret fuel attempt input out = Outcome.done r →
      ∃ added, r.out = out ++ added ∧
        ∀ g res, Event.shown g res ∈ added →
          feedback secret g = some res ∧ g ∈ words ∧
            ∃ tok ∈ input, tok.length = 5 ∧ g = lowerStr tok := by
  intro fuel
  induction fuel with
  | zero =>
    intro attempt input out r h
    simp [attemptLoop] at h
  | succ fuel ih =>
    intro attempt input out r h
    rw [attemptLoop] at h
    by_cases ha : attempt ≤ MAX_TRIES
    · rw [if_pos ha] at h
      cases hrd : readGuess words attempt input out with
      | eof out1 =>
        rw [hrd] at h
        simp only at h
        obtain ⟨evs, ho, hq⟩ := readGuess_eof_out words attempt input out out1 hrd
        injection h with h
        subst h
        exact ⟨evs, ho, fun g res hm => absurd hm (not_shown_of_quiet attempt evs hq g res)⟩
      | got guess rest out1 =>
        rw [hrd] at h
        simp only at h
        obtain ⟨evs, ho, hq, hgw, htok⟩ :=
          readGuess_got_out words attempt input out out1 guess rest hrd
        have hsub := readGuess_got_rest words attempt input out out1 guess rest hrd
        cases hf : feedback secret guess with
        | none =>
          rw [hf] at h
          simp at h
        | some result =>
          rw [hf] at h
          simp only at h
          by_cases hw : guess = secret
          · rw [if_pos hw] at h
            injection h with h
            subst h
            refine ⟨evs ++ [Event.shown guess result, Event.gotIt attempt secret],
              by simp [ho], ?_⟩
            intro g res hm
            rcases List.mem_append.mp hm with h1 | h1
            · exact absurd h1 (not_shown_of_quiet attempt evs hq g res)
            · simp at h1
              obtain ⟨hg1, hr1⟩ := h1
              subst hg1
              subst hr1
              exact ⟨hf, hgw, htok⟩
          · rw [if_neg hw] at h
            obtain ⟨added, hadd, hprop⟩ := ih _ _ _ _ h
            refine ⟨evs ++ Event.shown guess result :: added, by simp [hadd, ho], ?_⟩
            intro g res hm
            rcases List.mem_append.mp hm with h1 | h1
            · exact absurd h1 (not_shown_of_quiet attempt evs hq g res)
            · rcases List.mem_cons.mp h1 with h2 | h2
              · injection h2 with hg1 hr1
                subst hg1
                subst hr1
                exact ⟨hf, hgw, htok⟩
              · obtain ⟨hfb, hgm, tok, htm, ht5, hgt⟩ := hprop g res h2
                exact ⟨hfb, hgm, tok, hsub tok htm, ht5, hgt⟩
    · rw [if_neg ha] at h
      injection h with h
      subst h
      exact ⟨[Event.outOfTries secret], rfl, by simp⟩

/-- C11 (feedback depends only on the pair (secret, guess)): two results of the
feedback computation on the same pair are equal; and in every finished run of the
attempt loop, started at any attempt number after any output, each feedback
display added shows exactly the feedback of the pair (secret, guess), whatever
was scored before it. -/
theorem C11_feedback_function (words : List Str) (secret : Str) (fuel attempt : Nat)
    (input : List Str) (out : List Event) (r : Run)
    (h : attemptLoop words secret fuel attempt input out = Outcome.done r) :
    (∀ guess r1 r2, feedback secret guess = some r1 → feedback secret guess = some r2 →
      r1 = r2) ∧
    ∃ added, r.out = out ++ added ∧
      ∀ g res, Event.shown g res ∈ added → feedback secret g = some res := by
  constructor
  · intro guess r1 r2 h1 h2
    rw [h1] at h2
    exact Option.some.inj h2
  · obtain ⟨added, hadd, hprop⟩ := attemptLoop_trace words secret fuel attempt input out r h
    exact ⟨added, hadd, fun g res hm => (hprop g res hm).1⟩

/-- Witness of C11: the guess `eager` scored at attempts 3 and 4 after an earlier
display. -/
theorem C11_feedback_function_witness :
    (∀ guess r1 r2, feedback "erase".toList guess = some r1 →
      feedback "erase".toList guess = some r2 → r1 = r2) ∧
    ∃ added,
      (⟨[Event.banner, Event.shown "geese".toList "_Y_GG".toList, Event.prompt 3,
          Event.shown "eager".toList "GY_YY".toList, Event.prompt 4,
          Event.shown "eager".toList "GY_YY".toList, Event.prompt 5], Exit.eof⟩ : Run).out =
        [Event.banner, Event.shown "geese".toList "_Y_GG".toList] ++ added ∧
      ∀ g res, Event.shown g res ∈ added → feedback "erase".toList g = some res :=
  C11_feedback_function ["erase".toList, "eager".toList, "geese".toList] "erase".toList 7 3
    ["eager".toList, "eager".toList]
    [Event.banner, Event.shown "geese".toList "_Y_GG".toList]
    ⟨[Event.banner, Event.shown "geese".toList "_Y_GG".toList, Event.prompt 3,
      Event.shown "eager".toList "GY_YY".toList, Event.prompt 4,
      Event.shown "eager".toList "GY_YY".toList, Event.prompt 5], Exit.eof⟩
    (by decide)

/-! ## The loader and the secret (claims C12, C13, C14) -/

theorem lowerStr_length (w : Str) : (lowerStr w).length = w.length := by
  simp [lowerStr]

theorem ofNat_add32 (n : Nat) (h1 : 65 ≤ n) (h2 : n ≤ 90) :
    (Char.ofNat (n + 32)).toNat = n + 32 := by
  interval_cases n <;> rfl

theorem tolower_idem (c : Char) : tolower (tolower c) = tolower c := by
  unfold tolower
  by_cases h : 65 ≤ c.toNat ∧ c.toNat ≤ 90
  · rw [if_pos h]
    have hn := ofNat_add32 c.toNat h.1 h.2
    rw [if_neg (by rw [hn]; omega)]
  · rw [if_neg h, if_neg h]

theorem lowerStr_idem (w : Str) : lowerStr (lowerStr w) = lowerStr w := by
  simp [lowerStr, tolower_idem]

/-- Every word kept by the loading loop has length 5 and is its own lowercased form. -/
theorem loadWords_kept (file : List Str) :
    ∀ w ∈ loadWords file, w.length = 5 ∧ lowerStr w = w := by
  induction file with
  | nil =>
    intro w hw
    simp [loadWords] at hw
  | cons t rest ih =>
    intro w hw
    rw [loadWords] at hw
    by_cases h5 : (lowerStr t).length = 5
    · rw [if_pos h5] at hw
      rcases List.mem_cons.mp hw with h1 | h1
      · subst h1
        exact ⟨h5, lowerStr_idem t⟩
      · exact ih w h1
    · rw [if_neg h5] at hw
      exact ih w hw

/-- Every word of the list used by `main` (after the loop of lines 36-38) has
length 5 and is its own lowercased form. -/
theorem words_kept (file : List Str) :
    ∀ w ∈ (loadWords file).map lowerStr, w.length = 5 ∧ lowerStr w = w := by
  intro w hw
  obtain ⟨v, hv, hvw⟩ := List.mem_map.mp hw
  obtain ⟨h5, hl⟩ := loadWords_kept file v hv
  rw [hl] at hvw
  subst hvw
  exact ⟨h5, hl⟩

/-- On a string of length 5 taken as secret and as guess, the feedback is defined
and all `'G'`, whatever its characters: the count table is never accessed. -/
theorem feedback_self (w : Str) (hw : w.length = 5) :
    feedback w w = some ['G', 'G', 'G', 'G', 'G'] := by
  match w, hw with
  | [a0, a1, a2, a3, a4], _ =>
    simp [feedback, countPass, firstPass, secondPass, forUpTo, countBody, greenBody,
      yellowBody, strSet]

/-- C12 (defect): the loading loop keeps every token of 5 characters, letters or
not: the token `12345` is kept although it is not made of lowercase letters, and a
run that scores it as a guess reads the count table at index `'1' - 'a' = -48`,
outside its bounds. -/
theorem C12_loader_keeps_non_letters :
    loadWords ["12345".toList] = ["12345".toList] ∧ ¬ isWord "12345".toList ∧
      main ["12345".toList, "abcde".toList] 1 ["12345".toList] = Outcome.undefined := by
  decide

theorem not_reveals_of_quiet (secret : Str) (attempt : Nat) (evs : List Event)
    (h : ∀ e ∈ evs, e = Event.prompt attempt ∨ e = Event.enterFive ∨ e = Event.notInList) :
    ∀ e ∈ evs, ¬ reveals secret e := by
  intro e he
  rcases h e he with h1 | h1 | h1 <;> subst h1 <;> simp [reveals]

/-- Shape of the output of a finished run of the attempt loop: messages that do
not give the secret away, followed by nothing (end of input), by the display of
the secret and the win message with the attempt number reached, or by the
out-of-tries message once `MAX_TRIES` attempts are used. -/
theorem attemptLoop_reveal (words : List Str) (secret : Str) :
    ∀ (fuel attempt : Nat) (input : List Str) (out : List Event) (r : Run),
      attemptLoop words secret fuel attempt input out = Outcome.done r →
      ∃ body, (∀ e ∈ body, ¬ reveals secret e) ∧
        ((r.exit = Exit.eof ∧ r.out = out ++ body ∧ scored body + attempt ≤ MAX_TRIES) ∨
         (r.exit = Exit.win ∧ ∃ res, feedback secret secret = some res ∧
            r.out = out ++ body ++
              [Event.shown secret res, Event.gotIt (scored body + attempt) secret] ∧
            scored body + attempt ≤ MAX_TRIES) ∨
         (r.exit = Exit.lose ∧ r.out = out ++ body ++ [Event.outOfTries secret] ∧
            (attempt ≤ MAX_TRIES + 1 → scored body + attempt = MAX_TRIES + 1))) := by
  have hM : MAX_TRIES = 6 := rfl
  intro fuel
  induction fuel with
  | zero =>
    intro attempt input out r h
    simp [attemptLoop] at h
  | succ fuel ih =>
    intro attempt input out r h
    rw [attemptLoop] at h
    by_cases ha : attempt ≤ MAX_TRIES
    · rw [if_pos ha] at h
      cases hrd : readGuess words attempt input out with
      | eof out1 =>
        rw [hrd] at h
        simp only at h
        obtain ⟨evs, ho, hq⟩ := readGuess_eof_out words attempt input out out1 hrd
        have hz := scored_of_quiet attempt evs hq
        injection h with h
        subst h
        exact ⟨evs, not_reveals_of_quiet secret attempt evs hq,
          Or.inl ⟨rfl, ho, by omega⟩⟩
      | got guess rest out1 =>
        rw [hrd] at h
        simp only at h
        obtain ⟨evs, ho, hq, _⟩ :=
          readGuess_got_out words attempt input out out1 guess rest hrd
        have hz := scored_of_quiet attempt evs hq
        have hnr := not_reveals_of_quiet secret attempt evs hq
        cases hf : feedback secret guess with
        | none =>
          rw [hf] at h
          simp at h
        | some result =>
          rw [hf] at h
          simp only at h
          by_cases hw : guess = secret
          · rw [if_pos hw] at h
            injection h with h
            subst h
            subst hw
            refine ⟨evs, hnr, Or.inr (Or.inl ⟨rfl, result, hf, ?_, by omega⟩)⟩
            simp [ho, hz]
          · rw [if_neg hw] at h
            obtain ⟨body, hbody, hcases⟩ := ih _ _ _ _ h
            have hsc : scored (evs ++ Event.shown guess result :: body) + attempt =
                scored body + (attempt + 1) := by
              rw [scored_append, hz]
              simp only [scored]
              omega
            refine ⟨evs ++ Event.shown guess result :: body, ?_, ?_⟩
            · intro e he
              rcases List.mem_append.mp he with h1 | h1
              · exact hnr e h1
              · rcases List.mem_cons.mp h1 with h2 | h2
                · subst h2
                  simpa [reveals] using hw
                · exact hbody e h2
            · rcases hcases with ⟨hx, hout, hle⟩ | ⟨hx, res, hfs, hout, hle⟩ | ⟨hx, hout, hle⟩
              · exact Or.inl ⟨hx, by simp [hout, ho], by omega⟩
              · refine Or.inr (Or.inl ⟨hx, res, hfs, ?_, by omega⟩)
                rw [hsc]
                simp [hout, ho]
              · refine Or.inr (Or.inr ⟨hx, by simp [hout, ho], ?_⟩)
                intro _
                have := hle (by omega)
                omega
    · rw [if_neg ha] at h
      injection h with h
      subst h
      refine ⟨[], by simp, Or.inr (Or.inr ⟨rfl, by simp, ?_⟩)⟩
      intro h7
      simp only [scored]
      omega

theorem main_eq_game (file : List Str) (draw : Int) (secret : Str) (h0 : 0 ≤ draw)
    (hsec : ((loadWords file).map lowerStr)[draw.toNat]? = some secret) (input : List Str) :
    main file draw input = game ((loadWords file).map lowerStr) secret input := by
  unfold main
  simp only
  rw [if_neg (by omega), hsec]

/-- In a finished run of lines 46-116 the win message and the out-of-tries
message carry the secret the run was started with. -/
theorem game_reveal_secret (words : List Str) (secret : Str) (input : List Str) (r : Run)
    (h : game words secret input = Outcome.done r) (k : Nat) (s : Str)
    (hmem : Event.gotIt k s ∈ r.out ∨ Event.outOfTries s ∈ r.out) : s = secret := by
  obtain ⟨body, hbody, hcases⟩ :=
    attemptLoop_reveal words secret (MAX_TRIES + 1) 1 input [Event.banner] r h
  have hnb1 : Event.gotIt k s ∉ body := fun hm => hbody _ hm (by simp [reveals])
  have hnb2 : Event.outOfTries s ∉ body := fun hm => hbody _ hm (by simp [reveals])
  rcases hcases with ⟨_, hout, _⟩ | ⟨_, res, _, hout, _⟩ | ⟨_, hout, _⟩
  · rw [hout] at hmem
    simp [hnb1, hnb2] at hmem
  · rw [hout] at hmem
    simp [hnb1, hnb2] at hmem
    exact hmem.2
  · rw [hout] at hmem
    simp [hnb1, hnb2] at hmem
    exact hmem

/-- C13 (the secret is a member of the word list): for a non-empty loaded word
list and a draw in `[0, size-1]`, the secret `words[draw]` is defined, is an
element of the list and has length 5; the whole run is played with this one
secret, which is the word every win or out-of-tries message carries; and a token
equal to the secret (or lowercasing to it) passes validation and wins at once. -/
theorem C13_secret_in_list (file : List Str) (draw : Int)
    (hne : (loadWords file).map lowerStr ≠ [])
    (h0 : 0 ≤ draw) (h1 : draw ≤ (((loadWords file).map lowerStr).length : Int) - 1) :
    ∃ secret, ((loadWords file).map lowerStr)[draw.toNat]? = some secret ∧
      secret ∈ (loadWords file).map lowerStr ∧ secret.length = 5 ∧
      (∀ input, main file draw input = game ((loadWords file).map lowerStr) secret input) ∧
      (∀ input r, main file draw input = Outcome.done r →
        ∀ k s, (Event.gotIt k s ∈ r.out ∨ Event.outOfTries s ∈ r.out) → s = secret) ∧
      ∀ (fuel attempt : Nat) (tok : Str) (rest : List Str) (out : List Event),
        attempt ≤ MAX_TRIES → (tok = secret ∨ (tok.length = 5 ∧ lowerStr tok = secret)) →
        attemptLoop ((loadWords file).map lowerStr) secret (fuel + 1) attempt (tok :: rest) out =
          Outcome.done ⟨out ++ [Event.prompt attempt,
            Event.shown secret ['G', 'G', 'G', 'G', 'G'], Event.gotIt attempt secret],
            Exit.win⟩ := by
  have _ := hne
  have hlt : draw.toNat < ((loadWords file).map lowerStr).length := by omega
  have hget : ((loadWords file).map lowerStr)[draw.toNat]? =
      some (((loadWords file).map lowerStr)[draw.toNat]) := List.getElem?_eq_getElem hlt
  have hmem : ((loadWords file).map lowerStr)[draw.toNat] ∈ (loadWords file).map lowerStr :=
    List.getElem_mem _
  obtain ⟨h5, hlow⟩ := words_kept file _ hmem
  refine ⟨_, hget, hmem, h5, main_eq_game file draw _ h0 hget, ?_, ?_⟩
  · intro input r hr k s hks
    rw [main_eq_game file draw _ h0 hget] at hr
    exact game_reveal_secret _ _ input r hr k s hks
  · intro fuel attempt tok rest out ha htok
    have htok2 : tok.length = 5 ∧
        lowerStr tok = ((loadWords file).map lowerStr)[draw.toNat] := by
      rcases htok with h | h
      · subst h
        exact ⟨h5, hlow⟩
      · exact h
    obtain ⟨ht5, htl⟩ := htok2
    rw [attemptLoop_accept _ _ fuel attempt tok rest out ['G', 'G', 'G', 'G', 'G'] ha ht5
      (by rw [htl]; exact hmem) (by rw [htl]; exact feedback_self _ h5), if_pos htl, htl]

/-- Witness of C13: the file `Erase`, `hi`, `eager`, draw 0. -/
theorem C13_secret_in_list_witness :
    ∃ secret,
      ((loadWords ["Erase".toList, "hi".toList, "eager".toList]).map lowerStr)[(0 : Int).toNat]? =
        some secret ∧
      secret ∈ (loadWords ["Erase".toList, "hi".toList, "eager".toList]).map lowerStr ∧
      secret.length = 5 ∧
      (∀ input, main ["Erase".toList, "hi".toList, "eager".toList] 0 input =
        game ((loadWords ["Erase".toList, "hi".toList, "eager".toList]).map lowerStr)
          secret input) ∧
      (∀ input r, main ["Erase".toList, "hi".toList, "eager".toList] 0 input =
          Outcome.done r →
        ∀ k s, (Event.gotIt k s ∈ r.out ∨ Event.outOfTries s ∈ r.out) → s = secret) ∧
      ∀ (fuel attempt : Nat) (tok : Str) (rest : List Str) (out : List Event),
        attempt ≤ MAX_TRIES → (tok = secret ∨ (tok.length = 5 ∧ lowerStr tok = secret)) →
        attemptLoop ((loadWords ["Erase".toList, "hi".toList, "eager".toList]).map lowerStr)
            secret (fuel + 1) attempt (tok :: rest) out =
          Outcome.done ⟨out ++ [Event.prompt attempt,
            Event.shown secret ['G', 'G', 'G', 'G', 'G'], Event.gotIt attempt secret],
            Exit.win⟩ :=
  C13_secret_in_list ["Erase".toList, "hi".toList, "eager".toList] 0
    (by decide) (by decide) (by decide)

theorem get_of_length5 (w : Str) (hw : w.length = 5) (i : Nat) (hi : i < 5) :
    ∃ a, w[i]? = some a :=
  ⟨w[i], List.getElem?_eq_getElem (by omega)⟩

/-- C14 (every guess that reaches the feedback computation satisfies its
precondition): with the secret `words[draw]` read from the loaded list, the
secret has length 5; every guess with which the validation loop is left is the
lowercased form of an input token of length 5, is in the word list and has the
length of the secret, so that `guess[i]` and `secret[i]` are within bounds for
`i` in `0..4`; and every guess displayed in a finished run is such a guess. -/
theorem C14_scored_guess_precondition (file : List Str) (draw : Int) (secret : Str)
    (hsec : ((loadWords file).map lowerStr)[draw.toNat]? = some secret) :
    secret.length = 5 ∧
    (∀ (attempt : Nat) (inp : List Str) (out out1 : List Event) (guess : Str)
        (rest : List Str),
        readGuess ((loadWords file).map lowerStr) attempt inp out = Read.got guess rest out1 →
        (∃ tok ∈ inp, tok.length = 5 ∧ guess = lowerStr tok) ∧
        guess ∈ (loadWords file).map lowerStr ∧ guess.length = 5 ∧
        guess.length = secret.length ∧
        ∀ i, i < 5 → ∃ a b, guess[i]? = some a ∧ secret[i]? = some b) ∧
    (∀ (input : List Str) (r : Run), main file draw input = Outcome.done r →
      ∀ g res, Event.shown g res ∈ r.out →
        (∃ tok ∈ input, tok.length = 5 ∧ g = lowerStr tok) ∧
        g ∈ (loadWords file).map lowerStr ∧ g.length = 5 ∧ g.length = secret.length) := by
  have hmem : secret ∈ (loadWords file).map lowerStr := List.getElem?_mem hsec
  have hs5 : secret.length = 5 := (words_kept file secret hmem).1
  refine ⟨hs5, ?_, ?_⟩
  · intro attempt inp out out1 guess rest hrd
    obtain ⟨_, _, _, hgm, htok⟩ := readGuess_got_out _ attempt inp out out1 guess rest hrd
    have hg5 : guess.length = 5 := (words_kept file guess hgm).1
    refine ⟨htok, hgm, hg5, by rw [hg5, hs5], ?_⟩
    intro i hi
    obtain ⟨a, ha⟩ := get_of_length5 guess hg5 i hi
    obtain ⟨b, hb⟩ := get_of_length5 secret hs5 i hi
    exact ⟨a, b, ha, hb⟩
  · intro input r hr g res hshown
    by_cases h0 : draw < 0
    · unfold main at hr
      simp only [if_pos h0] at hr
      cases hr
    · rw [main_eq_game file draw secret (by omega) hsec input] at hr
      obtain ⟨added, hadd, hprop⟩ := attemptLoop_trace _ secret _ 1 input [Event.banner] r hr
      rw [hadd] at hshown
      have hin : Event.shown g res ∈ added := by
        rcases List.mem_append.mp hshown with h1 | h1
        · simp at h1
        · exact h1
      obtain ⟨_, hgm, htok⟩ := hprop g res hin
      have hg5 : g.length = 5 := (words_kept file g hgm).1
      exact ⟨htok, hgm, hg5, by rw [hg5, hs5]⟩

/-- Witness of C14: the file `Erase`, `hi`, `eager`, draw 0. -/
theorem C14_scored_guess_precondition_witness :
    "erase".toList.length = 5 ∧
    (∀ (attempt : Nat) (inp : List Str) (out out1 : List Event) (guess : Str)
        (rest : List Str),
        readGuess ((loadWords ["Erase".toList, "hi".toList, "eager".toList]).map lowerStr)
          attempt inp out = Read.got guess rest out1 →
        (∃ tok ∈ inp, tok.length = 5 ∧ guess = lowerStr tok) ∧
        guess ∈ (loadWords ["Erase".toList, "hi".toList, "eager".toList]).map lowerStr ∧
        guess.length = 5 ∧ guess.length = "erase".toList.length ∧
        ∀ i, i < 5 → ∃ a b, guess[i]? = some a ∧ "erase".toList[i]? = some b) ∧
    (∀ (input : List Str) (r : Run),
      main ["Erase".toList, "hi".toList, "eager".toList] 0 input = Outcome.done r →
      ∀ g res, Event.shown g res ∈ r.out →
        (∃ tok ∈ input, tok.length = 5 ∧ g = lowerStr tok) ∧
        g ∈ (loadWords ["Erase".toList, "hi".toList, "eager".toList]).map lowerStr ∧
        g.length = 5 ∧ g.length = "erase".toList.length) :=
  C14_scored_guess_precondition ["Erase".toList, "hi".toList, "eager".toList] 0
    "erase".toList (by decide)

/-- C16 (the secret is revealed only once the run is over): the output of every
finished run is a stretch of messages none of which gives the secret away,
followed by nothing when the input ended (no win and no loss is declared), or by
the display of a guess equal to the secret and the win message, or, after
`MAX_TRIES` scored guesses, by the out-of-tries message. -/
theorem C16_secret_revealed_at_end (words : List Str) (secret : Str) (input : List Str)
    (r : Run) (h : game words secret input = Outcome.done r) :
    ∃ body, (∀ e ∈ body, ¬ reveals secret e) ∧
      ((r.exit = Exit.eof ∧ r.out = body ∧ scored body < MAX_TRIES) ∨
       (r.exit = Exit.win ∧ ∃ res, feedback secret secret = some res ∧
          r.out = body ++ [Event.shown secret res, Event.gotIt (scored body + 1) secret] ∧
          scored body < MAX_TRIES) ∨
       (r.exit = Exit.lose ∧ r.out = body ++ [Event.outOfTries secret] ∧
          scored body = MAX_TRIES)) := by
  have hM : MAX_TRIES = 6 := rfl
  obtain ⟨body, hbody, hcases⟩ :=
    attemptLoop_reveal words secret (MAX_TRIES + 1) 1 input [Event.banner] r h
  have hsc : scored (Event.banner :: body) = scored body := rfl
  refine ⟨Event.banner :: body, ?_, ?_⟩
  · intro e he
    rcases List.mem_cons.mp he with h1 | h1
    · subst h1
      simp [reveals]
    · exact hbody e h1
  · rw [hsc]
    rcases hcases with ⟨hx, hout, hle⟩ | ⟨hx, res, hfs, hout, hle⟩ | ⟨hx, hout, hle⟩
    · exact Or.inl ⟨hx, by simpa using hout, by omega⟩
    · exact Or.inr (Or.inl ⟨hx, res, hfs, by simpa using hout, by omega⟩)
    · refine Or.inr (Or.inr ⟨hx, by simpa using hout, ?_⟩)
      have := hle (by omega)
      omega

/-- Witness of C16: secret `erase`, one rejected token, one scored guess, then the
end of the input. -/
theorem C16_secret_revealed_at_end_witness :
    ∃ body, (∀ e ∈ body, ¬ reveals "erase".toList e) ∧
      (((⟨[Event.banner, Event.prompt 1, Event.enterFive, Event.prompt 1,
            Event.shown "eager".toList "GY_YY".toList, Event.prompt 2], Exit.eof⟩ : Run).exit =
          Exit.eof ∧
        (⟨[Event.banner, Event.prompt 1, Event.enterFive, Event.prompt 1,
            Event.shown "eager".toList "GY_YY".toList, Event.prompt 2], Exit.eof⟩ : Run).out =
          body ∧ scored body < MAX_TRIES) ∨
       ((⟨[Event.banner, Event.prompt 1, Event.enterFive, Event.prompt 1,
            Event.shown "eager".toList "GY_YY".toList, Event.prompt 2], Exit.eof⟩ : Run).exit =
          Exit.win ∧ ∃ res, feedback "erase".toList "erase".toList = some res ∧
          (⟨[Event.banner, Event.prompt 1, Event.enterFive, Event.prompt 1,
            Event.shown "eager".toList "GY_YY".toList, Event.prompt 2], Exit.eof⟩ : Run).out =
            body ++ [Event.shown "erase".toList res,
              Event.gotIt (scored body + 1) "erase".toList] ∧
          scored body < MAX_TRIES) ∨
       ((⟨[Event.banner, Event.prompt 1, Event.enterFive, Event.prompt 1,
            Event.shown "eager".toList "GY_YY".toList, Event.prompt 2], Exit.eof⟩ : Run).exit =
          Exit.lose ∧
        (⟨[Event.banner, Event.prompt 1, Event.enterFive, Event.prompt 1,
            Event.shown "eager".toList "GY_YY".toList, Event.prompt 2], Exit.eof⟩ : Run).out =
          body ++ [Event.outOfTries "erase".toList] ∧ scored body = MAX_TRIES)) :=
  C16_secret_revealed_at_end ["erase".toList, "eager".toList] "erase".toList
    ["hi".toList, "EAGER".toList]
    ⟨[Event.banner, Event.prompt 1, Event.enterFive, Event.prompt 1,
      Event.shown "eager".toList "GY_YY".toList, Event.prompt 2], Exit.eof⟩ (by decide)

/-! ## More on the feedback computation (claims C15, C17, C18) -/

theorem unmatched_zero_of_not_mem (secret guess : Str) (hs : secret.length = 5) (c : Char)
    (hc : c ∉ secret) : unmatchedUpTo secret guess c 5 = 0 := by
  have h1 := matched_add_unmatched secret guess c 5
  rw [occUpTo_five secret hs c, List.count_eq_zero.mpr hc] at h1
  omega

/-- C15 (a guessed letter that occurs nowhere in the secret is Absent): for a
secret and a guess of 5 lowercase letters and a position `i < 5`, if the letter
`guess[i]` is not in the secret then the verdict at `i` is `'_'`. -/
theorem C15_absent_letter (secret guess : Str) (hs : isWord secret) (hg : isWord guess)
    (i : Nat) (hi : i < 5) (c : Char) (hc : guess[i]? = some c) (hnot : c ∉ secret) :
    ∃ result, feedback secret guess = some result ∧ result[i]? = some '_' := by
  refine ⟨verdicts secret guess, feedback_eq secret guess hs hg, ?_⟩
  rw [verdicts_get secret guess hi]
  have hne : ¬ guess[i]? = secret[i]? := by
    intro h
    rw [hc] at h
    exact hnot (List.getElem?_mem h.symm)
  unfold verdict
  rw [if_neg hne, hc]
  simp only
  rw [unmatched_zero_of_not_mem secret guess hs.1 c hnot, if_neg (Nat.not_lt_zero _)]

/-- Witness of C15: secret `spelt`, guess `spent`, position 3 (letter `n`); the
whole feedback is `GGG_G`. -/
theorem C15_absent_letter_witness :
    feedback "spelt".toList "spent".toList = some ['G', 'G', 'G', '_', 'G'] ∧
    ∃ result, feedback "spelt".toList "spent".toList = some result ∧
      result[3]? = some '_' :=
  ⟨by decide, C15_absent_letter "spelt".toList "spent".toList (by decide) (by decide) 3
    (by decide) 'n' (by decide) (by decide)⟩

theorem used_eq_filter (secret guess : Str) (c : Char) (n : Nat) :
    ((List.range n).filter (fun i => decide (guess[i]? = some c ∧
        secret[i]? ≠ some c))).length = usedUpTo secret guess c n := by
  induction n with
  | zero => rfl
  | succ n ih =>
    rw [filter_range_succ, ih]
    simp only [usedUpTo, decide_eq_true_eq]

theorem unmatched_eq_filter (secret guess : Str) (c : Char) (n : Nat) :
    ((List.range n).filter (fun i => decide (secret[i]? = some c ∧
        guess[i]? ≠ some c))).length = unmatchedUpTo secret guess c n := by
  induction n with
  | zero => rfl
  | succ n ih =>
    rw [filter_range_succ, ih]
    simp only [unmatchedUpTo, decide_eq_true_eq]

/-- Number of positions below `n` holding `c` in the guess and marked `'Y'`. -/
theorem yellow_upTo (secret guess : Str) (c : Char) (n : Nat) :
    ((List.range n).filter (fun i => decide (guess[i]? = some c ∧
        verdict secret guess i = 'Y'))).length =
      min (usedUpTo secret guess c n) (unmatchedUpTo secret guess c 5) := by
  induction n with
  | zero => simp [usedUpTo]
  | succ n ih =>
    rw [filter_range_succ, ih]
    simp only [usedUpTo]
    by_cases hg : guess[n]? = some c
    · simp only [verdict_yellow_iff secret guess n c hg, hg]
      by_cases hs : secret[n]? = some c
      · simp [hs]
      · by_cases hlt : usedUpTo secret guess c n < unmatchedUpTo secret guess c 5
        · simp [hs, hlt]
          omega
        · simp [hs, hlt]
          omega
    · simp [hg]

/-- C17 (exact count of non-Absent verdicts): for a secret and a guess of 5
lowercase letters and every letter `L`, the number of positions holding `L` in
the guess that are marked `'G'` or `'Y'` is the minimum of the occurrences of `L`
in the guess and in the secret, and the number of those marked `'Y'` is the
minimum of the unmatched occurrences of `L` in the guess and in the secret. -/
theorem C17_exact_marks (secret guess : Str) (hs : isWord secret) (hg : isWord guess)
    (L : Char) :
    ∃ result, feedback secret guess = some result ∧
      ((List.range 5).filter (fun i => decide (guess[i]? = some L ∧
          (result[i]? = some 'G' ∨ result[i]? = some 'Y')))).length =
        min (guess.count L) (secret.count L) ∧
      ((List.range 5).filter (fun i => decide (guess[i]? = some L ∧
          result[i]? = some 'Y'))).length =
        min ((List.range 5).filter (fun i => decide (guess[i]? = some L ∧
              secret[i]? ≠ some L))).length
          ((List.range 5).filter (fun i => decide (secret[i]? = some L ∧
              guess[i]? ≠ some L))).length := by
  refine ⟨verdicts secret guess, feedback_eq secret guess hs hg, ?_, ?_⟩
  · have hcongr : (List.range 5).filter (fun i => decide (guess[i]? = some L ∧
          ((verdicts secret guess)[i]? = some 'G' ∨ (verdicts secret guess)[i]? = some 'Y'))) =
        (List.range 5).filter (fun i => decide (guess[i]? = some L ∧
          (verdict secret guess i = 'G' ∨ verdict secret guess i = 'Y'))) := by
      apply List.filter_congr
      intro i hi
      rw [verdicts_get secret guess (List.mem_range.mp hi)]
      simp
    rw [hcongr, marked_upTo, ← occUpTo_five secret hs.1 L, ← occUpTo_five guess hg.1 L,
      ← matched_add_unmatched secret guess L 5, ← matched_add_used secret guess L 5]
    omega
  · have hcongr : (List.range 5).filter (fun i => decide (guess[i]? = some L ∧
          (verdicts secret guess)[i]? = some 'Y')) =
        (List.range 5).filter (fun i => decide (guess[i]? = some L ∧
          verdict secret guess i = 'Y')) := by
      apply List.filter_congr
      intro i hi
      rw [verdicts_get secret guess (List.mem_range.mp hi)]
      simp
    rw [hcongr, yellow_upTo, used_eq_filter, unmatched_eq_filter]

/-- Witness of C17: secret `erase`, guess `geese`, letter `e`. -/
theorem C17_exact_marks_witness :
    ∃ result, feedback "erase".toList "geese".toList = some result ∧
      ((List.range 5).filter (fun i => decide ("geese".toList[i]? = some 'e' ∧
          (result[i]? = some 'G' ∨ result[i]? = some 'Y')))).length =
        min ("geese".toList.count 'e') ("erase".toList.count 'e') ∧
      ((List.range 5).filter (fun i => decide ("geese".toList[i]? = some 'e' ∧
          result[i]? = some 'Y'))).length =
        min ((List.range 5).filter (fun i => decide ("geese".toList[i]? = some 'e' ∧
              "erase".toList[i]? ≠ some 'e'))).length
          ((List.range 5).filter (fun i => decide ("erase".toList[i]? = some 'e' ∧
              "geese".toList[i]? ≠ some 'e'))).length :=
  C17_exact_marks "erase".toList "geese".toList (by decide) (by decide) 'e'

theorem slot_surj (k : Nat) (hk : k < 26) :
    ∃ c : Char, 97 ≤ c.toNat ∧ c.toNat ≤ 122 ∧ slot c = k := by
  have hn : (Char.ofNat (97 + k)).toNat = 97 + k := by
    interval_cases k <;> rfl
  refine ⟨Char.ofNat (97 + k), by omega, by omega, ?_⟩
  unfold slot
  omega

/-- A table of 26 entries whose entry at the position of each lowercase letter is
a natural number has no negative entry. -/
theorem table_nonneg (t : List Int) (f : Char → Nat) (hlen : t.length = 26)
    (h : ∀ c : Char, 97 ≤ c.toNat → c.toNat ≤ 122 → t[slot c]? = some ((f c : Nat) : Int)) :
    ∀ x ∈ t, 0 ≤ x := by
  intro x hx
  obtain ⟨k, hk, hkx⟩ := List.getElem_of_mem hx
  obtain ⟨c, h1, h2, hsl⟩ := slot_surj k (by omega)
  have hc := h c h1 h2
  rw [hsl, List.getElem?_eq_getElem hk, hkx] at hc
  rw [Option.some.inj hc]
  exact Int.ofNat_nonneg _

theorem idx_bounds {c : Char} (h1 : 97 ≤ c.toNat) (h2 : c.toNat ≤ 122) :
    0 ≤ idx c ∧ idx c < 26 := by
  unfold idx
  omega

/-- C18 (the feedback computation is safe on valid words): for a secret and a
guess of exactly 5 lowercase letters, every index `secret[i]-'a'` and
`guess[i]-'a'` lies in `0..25`; the counting loop and the second pass are defined
after every number `n <= 5` of iterations (no access is out of bounds), the
table keeps its 26 entries, and none of them is negative at any of these points. -/
theorem C18_table_safe (secret guess : Str) (hs : isWord secret) (hg : isWord guess) :
    (∀ i, i < 5 → ∀ c, (secret[i]? = some c ∨ guess[i]? = some c) →
      0 ≤ idx c ∧ idx c < 26) ∧
    (∀ n, n ≤ 5 → ∃ t, forUpTo (countBody secret guess) n (List.replicate 26 0) = some t ∧
      t.length = 26 ∧ ∀ x ∈ t, 0 ≤ x) ∧
    ∃ cnt r1, countPass secret guess = some cnt ∧ firstPass secret guess = some r1 ∧
      ∀ n, n ≤ 5 → ∃ r t, forUpTo (yellowBody guess) n (r1, cnt) = some (r, t) ∧
        t.length = 26 ∧ ∀ x ∈ t, 0 ≤ x := by
  refine ⟨?_, ?_, ?_⟩
  · intro i _ c hc
    have hmem : c ∈ secret ∨ c ∈ guess := by
      rcases hc with h | h
      · exact Or.inl (List.getElem?_mem h)
      · exact Or.inr (List.getElem?_mem h)
    rcases hmem with h | h
    · exact idx_bounds (hs.2 c h).1 (hs.2 c h).2
    · exact idx_bounds (hg.2 c h).1 (hg.2 c h).2
  · intro n hn
    obtain ⟨t, ht, hlen, hent⟩ := countPass_inv secret guess hs hg n hn
    exact ⟨t, ht, hlen, table_nonneg t _ hlen hent⟩
  · obtain ⟨cnt, hcnt, hcl, hc⟩ := countPass_inv secret guess hs hg 5 (Nat.le_refl 5)
    obtain ⟨r1, hr1, hr1len, hr1ent⟩ := firstPass_inv secret guess hs hg 5 (Nat.le_refl 5)
    have hr1ent2 : ∀ j, j < 5 →
        r1[j]? = some (if guess[j]? = secret[j]? then 'G' else '_') := by
      intro j hj
      rw [hr1ent j hj]
      simp [hj]
    refine ⟨cnt, r1, hcnt, hr1, ?_⟩
    intro n hn
    obtain ⟨r, t, hrt, _, htlen, _, htab⟩ :=
      secondPass_inv secret guess hs hg r1 cnt hr1len hr1ent2 hcl hc n hn
    exact ⟨r, t, hrt, htlen, table_nonneg t _ htlen htab⟩

/-- Witness of C18: secret `erase`, guess `eager`. -/
theorem C18_table_safe_witness :
    (∀ i, i < 5 → ∀ c, ("erase".toList[i]? = some c ∨ "eager".toList[i]? = some c) →
      0 ≤ idx c ∧ idx c < 26) ∧
    (∀ n, n ≤ 5 → ∃ t,
      forUpTo (countBody "erase".toList "eager".toList) n (List.replicate 26 0) = some t ∧
      t.length = 26 ∧ ∀ x ∈ t, 0 ≤ x) ∧
    ∃ cnt r1, countPass "erase".toList "eager".toList = some cnt ∧
      firstPass "erase".toList "eager".toList = some r1 ∧
      ∀ n, n ≤ 5 → ∃ r t, forUpTo (yellowBody "eager".toList) n (r1, cnt) = some (r, t) ∧
        t.length = 26 ∧ ∀ x ∈ t, 0 ≤ x :=
  C18_table_safe "erase".toList "eager".toList (by decide) (by decide)

/-! ## Termination (claim C19) -/

end Wordle
